import Mathlib

/-!
Verification development for the pydropsonde core: a shallow embedding of
the quality-control flag engine (`pydropsonde/helper/quality.py`), the
per-sonde altitude regridding engine (`pydropsonde/processor.py`), and the
circle-pattern regression and integration engine (`pydropsonde/circles.py`).
Floating point numbers are idealised as exact rationals (or reals where the
source applies `np.log` / `np.exp`); NaN is modelled as `Option.none`.
-/

/- ===================== Definitions: QualityControl ===================== -/

/-- The `QualityControl.qc_flags` registry: an insertion-ordered mapping
from flag name to boolean, modelled as an association list with unique keys
(a Python `dict`). -/
abbrev QCFlags := List (String × Bool)

/-- The registry's keys, in insertion order (`self.qc_flags.keys()`). -/
def qcKeys (fs : QCFlags) : List String := fs.map Prod.fst

/-- Dictionary lookup `self.qc_flags[k]` (first binding wins; a Python dict
has unique keys). -/
def qcGet : QCFlags → String → Option Bool
  | [], _ => none
  | (k, v) :: rest, key => if k = key then some v else qcGet rest key

/-- Python `str.split(",")` on the character list of `s` (Lean's builtin
`String.splitOn` is not kernel-reducible, so the split is modelled
directly: empty input yields `[""]`, separators delimit possibly empty
fields). -/
def splitCommaAux : List Char → List Char → List String
  | [], acc => [String.mk acc.reverse]
  | c :: rest, acc =>
    if c = ',' then String.mk acc.reverse :: splitCommaAux rest []
    else splitCommaAux rest (c :: acc)

/-- Python `used_flags.split(",")`. -/
def splitComma (s : String) : List String := splitCommaAux s.data []

/-- Bool-valued prefix test on character lists. -/
def charsPrefix : List Char → List Char → Bool
  | [], _ => true
  | _ :: _, [] => false
  | p :: ps, c :: cs => if p = c then charsPrefix ps cs else false

/-- Python `s.startswith(pat)`. -/
def strStartsWith (s pat : String) : Bool := charsPrefix pat.data s.data

/-- Python `s.replace(pat, "")`: delete every non-overlapping occurrence of
`pat`, scanning left to right (with an empty pattern the string is
unchanged, as in Python when the replacement is empty). -/
def replaceChars : List Char → List Char → List Char
  | _, [] => []
  | pat, c :: cs =>
    if pat ≠ [] ∧ charsPrefix pat (c :: cs) = true then
      replaceChars pat ((c :: cs).drop pat.length)
    else c :: replaceChars pat cs
termination_by _ l => l.length
decreasing_by
  · have hp : 1 ≤ pat.length := by
      rcases pat with _ | ⟨p, ps⟩
      · simp at *
      · simp
    simp only [List.length_drop, List.length_cons]
    omega
  · simp

/-- Python `s.replace(pat, "")` on strings. -/
def strReplace (s pat : String) : String := String.mk (replaceChars pat.data s.data)

/-- The parsing stage of `QualityControl.check_qc`: resolve `used_flags`
into the list of selected flag names.  `none` selects nothing, `"all"`
selects every registered flag, a single `all_except_<name>` entry selects
everything but `<name>` (popping a missing `<name>` raises `KeyError`), an
`all_except_` entry combined with other comma-separated values raises
`ValueError`, and otherwise the comma-separated names are selected. -/
def resolveUsedFlags (fs : QCFlags) (used : Option String) :
    Except String (List String) :=
  match used with
  | none => .ok []
  | some s =>
    if s = "all" then .ok (qcKeys fs)
    else
      let parts := splitComma s
      if parts.length = 1 && strStartsWith (parts.headD "") "all_except_" then
        let name := strReplace (parts.headD "") "all_except_"
        if (qcKeys fs).contains name then
          .ok (qcKeys (fs.filter (fun kv => decide (kv.fst ≠ name))))
        else .error "KeyError"
      else if strStartsWith (parts.headD "") "all_except_" then
        .error "If 'all_except_<x>' is provided in filter_flags, it should be the only value."
      else .ok parts

/-- `QualityControl.check_qc(used_flags, check_ugly)`: after resolving the
selection, raise if any selected name is unregistered; then return `True`
iff all selected flags hold (when `check_ugly`) or iff any selected flag
holds (when not `check_ugly`).  Python exceptions become `Except.error`. -/
def check_qc (fs : QCFlags) (used : Option String) (check_ugly : Bool) :
    Except String Bool :=
  match resolveUsedFlags fs used with
  | .error e => .error e
  | .ok selected =>
    if !(selected.all (fun f => (qcKeys fs).contains f)) then
      .error "not all flags are in the qc dict. please check you ran all qc tests"
    else
      let vals := selected.map (fun f => (qcGet fs f).getD false)
      if check_ugly && vals.all id then .ok true
      else if !check_ugly && vals.any id then .ok true
      else .ok false

/-- The enumerate loop of `QualityControl.get_byte_array`: starting at bit
position `i`, accumulate `2 ^ i * flag` over the variable's flags. -/
def qcByteAux (i : ℕ) : List Bool → ℕ
  | [] => 0
  | b :: rest => 2 ^ i * (cond b 1 0) + qcByteAux (i + 1) rest

/-- The packed byte value of `get_byte_array` (`qc_val`). -/
def qcByte (flags : List Bool) : ℕ := qcByteAux 0 flags

/-- The status derived in `get_byte_array`: `0 → BAD`,
`2 ^ (i + 1) - 1 → GOOD` with `i` the index of the last flag, else
`UGLY`. -/
def qcStatus (flags : List Bool) : String :=
  if qcByte flags = 0 then "BAD"
  else if qcByte flags = 2 ^ flags.length - 1 then "GOOD"
  else "UGLY"

/-- `QualityControl.add_sonde_flag_to_ds` aggregate value: `1` when every
registered flag holds, else `2` when some flag holds and the
`<alt_dim>_values` flag (default `True` when absent) holds, else `0`. -/
def sondeFlag (fs : QCFlags) (alt_dim : String) : ℕ :=
  if fs.all (fun kv => kv.snd) then 1
  else if fs.any (fun kv => kv.snd) && ((qcGet fs (alt_dim ++ "_values")).getD true) then 2
  else 0

/- ===================== Definitions: provenance flags =================== -/

/-- `Sonde.add_m_values` for one variable and one altitude bin: `N` is the
bin's raw-sample count (`<var>_N_qc`, an integer, never NaN) and `value`
the post-gap-fill bin value (`none` models NaN).  The code builds
`int_mask = value.where(~isnan(value), 0).astype(bool)` — replacing NaN by
`0` and then testing for non-zero — and
`m_mask = ~N.astype(bool) & int_mask`, then sets
`m = where(m_mask, 1, where(N > 0, 2, 0))`. -/
def mMethodFlag (N : ℕ) (value : Option ℚ) : ℕ :=
  let int_mask : Bool := value.getD 0 ≠ 0
  let m_mask : Bool := (decide (N = 0)) && int_mask
  if m_mask then 1 else if N > 0 then 2 else 0

/- ===================== Definitions: floater detection ================== -/

/-- One raw time sample as consumed by `QualityControl.get_is_floater`:
the timestamp is abstracted to its index in time order (the input list is
the time-sorted profile), `gpsalt` and `pres` may be NaN (`none`). -/
structure SurfSample where
  time : ℕ
  gpsalt : Option ℚ
  pres : Option ℚ
deriving DecidableEq

/-- Default sample for out-of-range indexing. -/
def surfDefault : SurfSample := ⟨0, none, none⟩

/-- The filter of `get_is_floater`:
`aspen_ds.where(aspen_ds.gpsalt < gpsalt_threshold, drop=True)` (a NaN
comparison is false) followed by
`dropna(dim="time", how="any", subset=["pres", "gpsalt"])`. -/
def surfaceFilter (ds : List SurfSample) (thr : ℚ) : List SurfSample :=
  ds.filter (fun s =>
    match s.gpsalt, s.pres with
    | some g, some _ => decide (g < thr)
    | _, _ => false)

/-- The boolean `floater` mask: for each adjacent pair of filtered samples,
`|Δgpsalt| < 1 ∧ |Δpres| < 1` (the filtered samples have no NaN left, so
`getD` extraction is exact). -/
def floaterMask (l : List SurfSample) : List Bool :=
  List.zipWith
    (fun a b =>
      decide (|b.gpsalt.getD 0 - a.gpsalt.getD 0| < 1)
        && decide (|b.pres.getD 0 - a.pres.getD 0| < 1))
    l l.tail

/-- The loop `for time_index in range(len(floater) - cons + 1)`: return the
first start index whose window of `cons` consecutive mask entries is all
true; `rem` counts the remaining loop iterations. -/
def findRunFrom (mask : List Bool) (cons : ℕ) : ℕ → ℕ → Option ℕ
  | _, 0 => none
  | i, rem + 1 =>
    if ((mask.drop i).take cons).all id then some i
    else findRunFrom mask cons (i + 1) rem

/-- First all-true window start over `range(len(mask) + 1 - cons)` (the
range is empty when `cons > len(mask)`). -/
def findRun (mask : List Bool) (cons : ℕ) : Option ℕ :=
  findRunFrom mask cons 0 (mask.length + 1 - cons)

/-- `QualityControl.get_is_floater`, returning `(is_floater, landing_time)`:
`is_floater` is set as soon as ANY adjacent filtered pair is stable
(`np.any(floater)`); the landing time for the first stable window start `i`
is `surface_ds.time[i - 1]` — Python's `[-1]` wraps to the LAST filtered
sample when `i = 0` — with fallback `surface_ds.time[0]` when no window of
length `cons` exists. -/
def get_is_floater (ds : List SurfSample) (thr : ℚ) (cons : ℕ) : Bool × Option ℕ :=
  let filtered := surfaceFilter ds thr
  let mask := floaterMask filtered
  if mask.any id then
    match findRun mask cons with
    | some i =>
      (true, some (if i = 0 then (filtered.getLastD surfDefault).time
                   else (filtered.getD (i - 1) surfDefault).time))
    | none => (true, some ((filtered.headD surfDefault).time))
  else (false, none)

/-- Stated from the spec's words, for comparison with the code: "altitude
and pressure both stay within 1-unit tolerance across at least
`cons` consecutive samples below the threshold altitude", i.e. some window
of `cons - 1` consecutive adjacent differences of the filtered profile is
entirely stable. -/
def specStableRun (ds : List SurfSample) (thr : ℚ) (cons : ℕ) : Prop :=
  ∃ i ≤ (floaterMask (surfaceFilter ds thr)).length,
    i + (cons - 1) ≤ (floaterMask (surfaceFilter ds thr)).length
    ∧ ∀ j < cons - 1, (floaterMask (surfaceFilter ds thr)).getD (i + j) false = true

/-- The run condition actually searched by the code's loop: `cons`
consecutive TRUE mask entries starting at `i` (a full window). -/
def specRunAt (mask : List Bool) (cons i : ℕ) : Prop :=
  i + cons ≤ mask.length ∧ ∀ j < cons, mask.getD (i + j) false = true

/- ============== Definitions: altitude monotonicity repair ============== -/

/-- NaN-aware `<` of float comparison: any comparison with NaN is false. -/
def optLt (a b : Option ℚ) : Bool :=
  match a, b with
  | some x, some y => decide (x < y)
  | _, _ => false

/-- `ds[alt_dim].sortby("time").dropna(dim="time").diff(dim="time")`: the
consecutive differences of the NaN-dropped, time-ascending altitude
sequence. -/
def altDiffs (alt : List (Option ℚ)) : List ℚ :=
  let clean := alt.filterMap id
  List.zipWith (fun x y => y - x) clean clean.tail

/-- `np.nanargmin`: index of the first minimal non-NaN entry, and the
`ValueError` numpy raises on an all-NaN slice. -/
def nanargmin (l : List (Option ℚ)) : Except String ℕ :=
  match l.filterMap id with
  | [] => .error "All-NaN slice encountered"
  | v :: vs => .ok (l.findIdx (fun x => decide (x = some (vs.foldl min v))))

/-- The bottom-up while-loop of `Sonde.remove_non_mono_incr_alt`: walk the
reversed (time-descending) altitude array from the anchor onwards; an entry
strictly below `curr_alt` is replaced by NaN, a surviving non-NaN entry
becomes the new `curr_alt` (NaN comparisons are false). -/
def monoRepair (curr : Option ℚ) : List (Option ℚ) → List (Option ℚ)
  | [] => []
  | a :: rest =>
    if optLt a curr then none :: monoRepair curr rest
    else if a ≠ none then a :: monoRepair a rest
    else a :: monoRepair curr rest

/-- `Sonde.remove_non_mono_incr_alt(bottom_up=True)` on the time-ascending
altitude sequence: if the NaN-dropped differences are all strictly negative
the input is returned unchanged (and no warning is emitted); otherwise the
code warns, reverses the array, anchors at the argmin of the positive
reversed differences (an index computed on the NaN-DROPPED difference array
but applied to the FULL reversed array, and an `All-NaN slice` ValueError
when no difference is positive), and repairs from the anchor onwards. -/
def remove_non_mono_incr_alt (alt : List (Option ℚ)) :
    Except String (List (Option ℚ)) :=
  if (altDiffs alt).all (fun d => decide (d < 0)) then .ok alt
  else
    let altRev := alt.reverse
    match nanargmin ((altDiffs alt).reverse.map
        (fun d => if 0 < d then some d else none)) with
    | .error e => .error e
    | .ok idx =>
      .ok (((altRev.take (idx + 1))
        ++ monoRepair (altRev.getD idx none) (altRev.drop (idx + 1))).reverse)

/- ================= Definitions: circle plane fit (fit2d) =============== -/

/-- One sonde's data at one altitude level, as consumed by `Circle.fit2d`:
`x`, `y` the circle-relative coordinates and `u` the variable value; `none`
models NaN. -/
structure SondeLevel where
  x : Option ℚ
  y : Option ℚ
  u : Option ℚ
deriving DecidableEq

/-- `invalid = np.isnan(u) | np.isnan(x) | np.isnan(y)`; a sonde is valid
when all three are present. -/
def sondeValid (s : SondeLevel) : Bool :=
  !(s.u.isNone || s.x.isNone || s.y.isNone)

/-- One row of the masked design matrix with its value: `a = [1, x, y]` and
`u_cal = u`, both zeroed for invalid sondes (`a[invalid] = 0`,
`u_cal = np.where(invalid, 0, u)`). -/
structure FitRow where
  o : ℚ
  x : ℚ
  y : ℚ
  u : ℚ

/-- The masked design row of one sonde. -/
def designRow (s : SondeLevel) : FitRow :=
  if sondeValid s then ⟨1, s.x.getD 0, s.y.getD 0, s.u.getD 0⟩
  else ⟨0, 0, 0, 0⟩

/-- `np.sum(~invalid)`: the number of valid sondes at the level. -/
def validCount (l : List SondeLevel) : ℕ := l.countP sondeValid

/-- Entry (1,1) of the normal matrix `AᵀA`. -/
def m11 (l : List SondeLevel) : ℚ := (l.map (fun s => (designRow s).o * (designRow s).o)).sum

/-- Entry (1,2) of `AᵀA`. -/
def m12 (l : List SondeLevel) : ℚ := (l.map (fun s => (designRow s).o * (designRow s).x)).sum

/-- Entry (1,3) of `AᵀA`. -/
def m13 (l : List SondeLevel) : ℚ := (l.map (fun s => (designRow s).o * (designRow s).y)).sum

/-- Entry (2,2) of `AᵀA`. -/
def m22 (l : List SondeLevel) : ℚ := (l.map (fun s => (designRow s).x * (designRow s).x)).sum

/-- Entry (2,3) of `AᵀA`. -/
def m23 (l : List SondeLevel) : ℚ := (l.map (fun s => (designRow s).x * (designRow s).y)).sum

/-- Entry (3,3) of `AᵀA`. -/
def m33 (l : List SondeLevel) : ℚ := (l.map (fun s => (designRow s).y * (designRow s).y)).sum

/-- Entry 1 of `Aᵀ u_cal`. -/
def v1 (l : List SondeLevel) : ℚ := (l.map (fun s => (designRow s).o * (designRow s).u)).sum

/-- Entry 2 of `Aᵀ u_cal`. -/
def v2 (l : List SondeLevel) : ℚ := (l.map (fun s => (designRow s).x * (designRow s).u)).sum

/-- Entry 3 of `Aᵀ u_cal`. -/
def v3 (l : List SondeLevel) : ℚ := (l.map (fun s => (designRow s).y * (designRow s).u)).sum

/-- Determinant of a 3x3 matrix given row-wise. -/
def det3 (a b c d e f g h i : ℚ) : ℚ :=
  a * (e * i - f * h) - b * (d * i - f * g) + c * (d * h - e * g)

/-- Determinant of the (symmetric) normal matrix `AᵀA`. -/
def detM (l : List SondeLevel) : ℚ :=
  det3 (m11 l) (m12 l) (m13 l) (m12 l) (m22 l) (m23 l) (m13 l) (m23 l) (m33 l)

/-- Cramer numerator for the intercept (column 1 replaced by `Aᵀu`). -/
def cram1 (l : List SondeLevel) : ℚ :=
  det3 (v1 l) (m12 l) (m13 l) (v2 l) (m22 l) (m23 l) (v3 l) (m23 l) (m33 l)

/-- Cramer numerator for the x-gradient (column 2 replaced by `Aᵀu`). -/
def cram2 (l : List SondeLevel) : ℚ :=
  det3 (m11 l) (v1 l) (m13 l) (m12 l) (v2 l) (m23 l) (m13 l) (v3 l) (m33 l)

/-- Cramer numerator for the y-gradient (column 3 replaced by `Aᵀu`). -/
def cram3 (l : List SondeLevel) : ℚ :=
  det3 (m11 l) (m12 l) (v1 l) (m12 l) (m22 l) (v2 l) (m13 l) (m23 l) (v3 l)

/-- `Circle.fit2d` at one altitude level, in exact arithmetic: with fewer
than 6 valid sondes all three outputs are NaN; otherwise the least-squares
solution `pinv(A) @ u_cal`.  On a full-column-rank design matrix the
Moore-Penrose pseudoinverse equals `(AᵀA)⁻¹Aᵀ`, computed here by Cramer's
rule on the 3x3 normal equations (the rank-deficient branch of
`np.linalg.pinv` is not exercised by any property of the spec; in exact
arithmetic the division by a zero determinant would give 0). -/
def fit2d (l : List SondeLevel) : Option ℚ × Option ℚ × Option ℚ :=
  if validCount l < 6 then (none, none, none)
  else (some (cram1 l / detM l), some (cram2 l / detM l), some (cram3 l / detM l))

/- ============ Definitions: circle omega / w vertical integrals ========= -/

/-- One altitude level of a circle dataset as consumed by
`Circle.add_omega` / `Circle.add_wvel`: the altitude coordinate, the
area-averaged divergence `div` and the circle-mean pressure `mean_p`
(`none` models NaN). -/
structure CLevel where
  alt : ℚ
  div : Option ℚ
  p : Option ℚ
deriving DecidableEq

/-- Default level for out-of-range indexing. -/
def defCL : CLevel := ⟨0, none, none⟩

/-- `ds.div.where(~np.isnan(ds.div), drop=True).sortby(alt_dim)`: DROP the
levels whose divergence is NaN and stable-sort the remainder by altitude
(the circle-mean pressure is masked with the same condition and travels
with its level). -/
def keptLevels (ls : List CLevel) : List CLevel :=
  List.insertionSort (fun a b => a.alt ≤ b.alt) (ls.filter (fun l => l.div.isSome))

/-- `xr.concat([zero_vel, p.diff(dim)], dim)`: the pressure difference
between consecutive KEPT levels, with `0` at the lowest kept level; a NaN
pressure propagates into its differences. -/
def presDiffs (ls : List CLevel) : List (Option ℚ) :=
  some 0 :: List.zipWith
    (fun a b => match a, b with
      | some x, some y => some (y - x)
      | _, _ => none)
    ((keptLevels ls).map (fun l => l.p)) ((keptLevels ls).map (fun l => l.p)).tail

/-- `del_omega = -div * pres_diff.values`. -/
def delOmega (ls : List CLevel) : List (Option ℚ) :=
  List.zipWith (fun l dp => dp.map (fun v => -(l.div.getD 0) * v))
    (keptLevels ls) (presDiffs ls)

/-- `DataArray.cumsum` with its default `skipna=True` (`np.nancumsum`):
the running sum treating NaN as 0 — the output carries no NaN at all. -/
def nancumsum (acc : ℚ) : List (Option ℚ) → List ℚ
  | [] => []
  | a :: r => (acc + a.getD 0) :: nancumsum (acc + a.getD 0) r

/-- The omega profile on the kept levels:
`del_omega.cumsum(dim) * 0.01 * 60**2` (the scale factor is `36`). -/
def omegaKept (ls : List CLevel) : List ℚ :=
  (nancumsum 0 (delOmega ls)).map (fun v => v * 36)

/-- `omega.broadcast_like(ds.div)`: align the kept-level values back onto
the full level list by altitude label; a level whose altitude is not among
the kept coordinates gets NaN. -/
def broadcastByAlt (pairs : List (CLevel × ℚ)) (ls : List CLevel) : List (Option ℚ) :=
  ls.map (fun l => (pairs.find? (fun kv => decide (kv.1.alt = l.alt))).map
    (fun kv => kv.2))

/-- `Circle.add_omega`: the omega profile aligned onto the input levels. -/
def add_omega (ls : List CLevel) : List (Option ℚ) :=
  broadcastByAlt ((keptLevels ls).zip (omegaKept ls)) ls

/-- `height = xr.concat([zero_vel, div[alt_dim]], dim)` followed by
`height.diff(dim)`: the altitude difference between consecutive kept
levels, with the FULL height above 0 for the lowest kept level. -/
def heightDiffs (ls : List CLevel) : List ℚ :=
  List.zipWith (fun a b => b - a) (0 :: (keptLevels ls).map (fun l => l.alt))
    ((keptLevels ls).map (fun l => l.alt))

/-- `del_w = -div * height_diff.values`. -/
def delW (ls : List CLevel) : List ℚ :=
  List.zipWith (fun l dz => -(l.div.getD 0) * dz) (keptLevels ls) (heightDiffs ls)

/-- Plain cumulative sum. -/
def cumsumQ (acc : ℚ) : List ℚ → List ℚ
  | [] => []
  | a :: r => (acc + a) :: cumsumQ (acc + a) r

/-- The vertical-velocity profile on the kept levels (`del_w.cumsum`). -/
def wKept (ls : List CLevel) : List ℚ := cumsumQ 0 (delW ls)

/-- `Circle.add_wvel`: the w profile aligned onto the input levels. -/
def add_wvel (ls : List CLevel) : List (Option ℚ) :=
  broadcastByAlt ((keptLevels ls).zip (wKept ls)) ls

/- ================= Definitions: altitude bin-averaging ================= -/

section Binning

variable {α : Type} [LinearOrderedField α]

/-- Position of a histogram sample: `ds[alt_dim].where(~np.isnan(ds[var]))`
— the altitude coordinate masked wherever the variable is NaN (an already
NaN altitude stays NaN).  A sample is a pair `(alt, value)`. -/
def maskedCoord (s : Option α × Option α) : Option α :=
  match s.2 with
  | none => none
  | some _ => s.1

/-- `np.histogram` bin membership for bin `i` of the edge list: bins are
right-open `[e_i, e_i+1)` except the final bin, which is closed on both
ends. -/
def inBin (edges : List α) (i : ℕ) (t : α) : Bool :=
  if i + 2 = edges.length then
    decide (edges.getD i 0 ≤ t) && decide (t ≤ edges.getD (i + 1) 0)
  else
    decide (edges.getD i 0 ≤ t) && decide (t < edges.getD (i + 1) 0)

/-- `histogram(ds[alt_dim].where(~isnan(ds[var])), bins)` at bin `i`: the
count of samples whose masked altitude falls in the bin (this is the
`<var>_N_qc` value after `astype(int)`). -/
def binCount (edges : List α) (i : ℕ) (samples : List (Option α × Option α)) : ℕ :=
  samples.countP (fun s =>
    match maskedCoord s with
    | some t => inBin edges i t
    | none => false)

/-- The weighted histogram at bin `i` with
`weights = ds[var].where(~isnan(ds[var]))`: the sum of the variable over
the samples whose masked altitude falls in the bin. -/
def binWeightSum (edges : List α) (i : ℕ)
    (samples : List (Option α × Option α)) : α :=
  (samples.map (fun s =>
    match maskedCoord s, s.2 with
    | some t, some v => if inBin edges i t then v else 0
    | _, _ => 0)).sum

/-- The gridded value of `Sonde.interpolate_alt` (method `"bin"`): the
weighted histogram divided by the count histogram; `0/0` is NaN. -/
def binValue (edges : List α) (i : ℕ)
    (samples : List (Option α × Option α)) : Option α :=
  if binCount edges i samples = 0 then none
  else some (binWeightSum edges i samples / (binCount edges i samples : α))

/-- Stated from the spec's words, for comparison with the code: the valid
(non-NaN) raw samples whose altitude falls in bin `i`. -/
def validValuesInBin (edges : List α) (i : ℕ)
    (samples : List (Option α × Option α)) : List α :=
  samples.filterMap (fun s =>
    match s.1, s.2 with
    | some t, some v => if inBin edges i t then some v else none
    | _, _ => none)

end Binning

/-- The pressure path of `Sonde.interpolate_alt` with the default
`p_log=True`: `p` is log-transformed (`np.log`) before binning and
exponentiated (`np.exp`) back afterwards, so the gridded pressure is the
exponential of the bin mean of `log p` (floats idealised as reals; this
definition is noncomputable because `Real.log` / `Real.exp` are). -/
noncomputable def pBinValue (edges : List ℝ) (i : ℕ)
    (samples : List (Option ℝ × Option ℝ)) : Option ℝ :=
  (binValue edges i (samples.map (fun s => (s.1, s.2.map Real.log)))).map Real.exp

/- ===================== Theorems: QC status and filters ================= -/

/-- Helper: the packed byte as a big-endian-from-bit-`i` recursion equals the
sum `Σ 2 ^ (i + j) * flag_j`. -/
theorem qcByteAux_eq_sum (flags : List Bool) :
    ∀ i, qcByteAux i flags =
      ((List.range flags.length).map
        (fun j => 2 ^ (i + j) * (cond (flags.getD j false) 1 0))).sum := by
  induction flags with
  | nil => intro i; simp [qcByteAux]
  | cons b rest ih =>
    intro i
    simp only [qcByteAux, List.length_cons, List.range_succ_eq_map, List.map_cons,
      List.sum_cons, List.map_map]
    congr 1
    rw [ih (i + 1)]
    refine congrArg List.sum (List.map_congr_left ?_)
    intro j _
    have hj2 : i + Nat.succ j = i + 1 + j := by omega
    simp [Function.comp, hj2]

/-- Helper: the packed byte starting at bit `i` is at most
`2 ^ (i + k) - 2 ^ i` for `k` flags. -/
theorem qcByteAux_le (flags : List Bool) :
    ∀ i, qcByteAux i flags ≤ 2 ^ (i + flags.length) - 2 ^ i := by
  induction flags with
  | nil => intro i; simp [qcByteAux]
  | cons b rest ih =>
    intro i
    have h := ih (i + 1)
    have hb : (cond b 1 0 : ℕ) ≤ 1 := by cases b <;> simp
    have h2 : 2 ^ i * (cond b 1 0) ≤ 2 ^ i := by
      calc 2 ^ i * (cond b 1 0) ≤ 2 ^ i * 1 := Nat.mul_le_mul_left _ hb
        _ = 2 ^ i := Nat.mul_one _
    have e1 : 2 ^ (i + 1) = 2 * 2 ^ i := by ring
    have e2 : 2 ^ (i + 1 + rest.length) = 2 ^ (i + (rest.length + 1)) := by
      congr 1; omega
    have hmono : 2 ^ (i + 1) ≤ 2 ^ (i + 1 + rest.length) :=
      Nat.pow_le_pow_right (by norm_num) (by omega)
    simp only [qcByteAux, List.length_cons]
    omega

/-- Helper: the packed byte of `k` flags fits in `k` bits. -/
theorem qcByte_lt (flags : List Bool) : qcByte flags < 2 ^ flags.length := by
  have h := qcByteAux_le flags 0
  simp only [Nat.zero_add, pow_zero] at h
  have : (1 : ℕ) ≤ 2 ^ flags.length := Nat.one_le_two_pow
  unfold qcByte
  omega

/-- C10: with `used_flags=None` (empty selection) the vacuous pass holds
only in the all-quantified `check_ugly` mode: `check_qc` returns `False`
when `check_ugly` is unset and `True` when it is set, for every
registry. -/
theorem check_qc_vacuous_asymmetry (fs : QCFlags) :
    check_qc fs none false = .ok false ∧ check_qc fs none true = .ok true := by
  constructor <;> simp [check_qc, resolveUsedFlags]

/-- C3: for a variable with `k ≥ 1` registered boolean checks,
`get_byte_array` packs the flags as `Σ 2 ^ i · flag_i` into one byte (the
value fits in `k` bits), and the derived status is `BAD` iff the byte is
`0`, `GOOD` iff the byte is `2 ^ k - 1`, and `UGLY` for every other
value. -/
theorem qc_status_byte_law (flags : List Bool) (h : flags ≠ []) :
    qcByte flags =
      ((List.range flags.length).map
        (fun j => 2 ^ j * (cond (flags.getD j false) 1 0))).sum
    ∧ qcByte flags < 2 ^ flags.length
    ∧ (qcStatus flags = "BAD" ↔ qcByte flags = 0)
    ∧ (qcStatus flags = "GOOD" ↔ qcByte flags = 2 ^ flags.length - 1)
    ∧ (qcStatus flags = "UGLY" ↔
        (qcByte flags ≠ 0 ∧ qcByte flags ≠ 2 ^ flags.length - 1)) := by
  have hk : 1 ≤ flags.length := List.length_pos.mpr h
  have h2 : 2 ≤ 2 ^ flags.length := by
    calc (2:ℕ) = 2 ^ 1 := (pow_one 2).symm
    _ ≤ 2 ^ flags.length := Nat.pow_le_pow_right (by norm_num) hk
  have hgne : (2:ℕ) ^ flags.length - 1 ≠ 0 := by omega
  refine ⟨by simpa using qcByteAux_eq_sum flags 0, qcByte_lt flags, ?_⟩
  unfold qcStatus
  split_ifs with h0 hg
  · exact ⟨⟨fun _ => h0, fun _ => rfl⟩,
      ⟨fun hx => absurd hx (by decide),
        fun hx => absurd (by omega : (2:ℕ) ^ flags.length - 1 = 0) hgne⟩,
      ⟨fun hx => absurd hx (by decide), fun hx => absurd h0 hx.1⟩⟩
  · exact ⟨⟨fun hx => absurd hx (by decide), fun hx => absurd hx h0⟩,
      ⟨fun _ => hg, fun _ => rfl⟩,
      ⟨fun hx => absurd hx (by decide), fun hx => absurd hg hx.2⟩⟩
  · exact ⟨⟨fun hx => absurd hx (by decide), fun hx => absurd hx h0⟩,
      ⟨fun hx => absurd hx (by decide), fun hx => absurd hx hg⟩,
      ⟨fun _ => ⟨h0, hg⟩, fun _ => rfl⟩⟩

/-- Witness for C3 at the concrete registry `[true, false]` (one passing
check, one failing): the status is `UGLY` and the byte is `1`. -/
theorem qc_status_byte_law_witness :
    qcStatus [true, false] = "UGLY" ↔
      (qcByte [true, false] ≠ 0 ∧
        qcByte [true, false] ≠ 2 ^ ([true, false] : List Bool).length - 1) :=
  (qc_status_byte_law [true, false] (by decide)).2.2.2.2

/-- C9: the aggregate sonde flag of `add_sonde_flag_to_ds` is `1` iff every
registered flag is true; `2` iff not all are true, at least one is true,
and the `<alt_dim>_values` altitude flag (defaulting to true when absent)
is not violated; and `0` otherwise. -/
theorem sonde_flag_law (fs : QCFlags) (alt_dim : String) :
    (sondeFlag fs alt_dim = 1 ↔ fs.all (fun kv => kv.snd) = true)
    ∧ (sondeFlag fs alt_dim = 2 ↔
        (fs.all (fun kv => kv.snd) = false ∧ fs.any (fun kv => kv.snd) = true
          ∧ (qcGet fs (alt_dim ++ "_values")).getD true = true))
    ∧ (sondeFlag fs alt_dim = 0 ↔
        (fs.all (fun kv => kv.snd) = false
          ∧ (fs.any (fun kv => kv.snd) = false
              ∨ (qcGet fs (alt_dim ++ "_values")).getD true = false))) := by
  unfold sondeFlag
  split_ifs with h1 h2
  · simp [h1]
  · simp only [Bool.not_eq_true] at h1
    simp only [Bool.and_eq_true] at h2
    simp [h1, h2.1, h2.2]
  · simp only [Bool.not_eq_true] at h1
    simp only [Bool.and_eq_true, not_and_or, Bool.not_eq_true] at h2
    constructor
    · simp [h1]
    constructor
    · constructor
      · intro hx; exact absurd hx (by decide)
      · intro hx; rcases h2 with h | h
        · rw [hx.2.1] at h; exact absurd h (by decide)
        · rw [hx.2.2] at h; exact absurd h (by decide)
    · constructor
      · intro _; exact ⟨h1, h2⟩
      · intro _; rfl

/-- Helper: a parse failure propagates through `check_qc`. -/
theorem check_qc_error_of_parse (fs : QCFlags) (u : Option String) (b : Bool)
    (e : String) (hp : resolveUsedFlags fs u = .error e) :
    check_qc fs u b = .error e := by
  unfold check_qc
  rw [hp]

/-- Helper: `resolveUsedFlags` on a plain comma-separated list (no
`all_except_` head, not `"all"`) selects exactly the split fields. -/
theorem resolve_plain (fs : QCFlags) (s : String) (hall : s ≠ "all")
    (hhd : strStartsWith ((splitComma s).headD "") "all_except_" = false) :
    resolveUsedFlags fs (some s) = .ok (splitComma s) := by
  simp only [resolveUsedFlags]
  rw [if_neg hall]
  simp only [hhd, Bool.and_false]
  rfl

/-- Helper: an `all_except_` entry leading a list of two or more fields
makes `resolveUsedFlags` fail with `ValueError`. -/
theorem resolve_conflict (fs : QCFlags) (s : String) (hall : s ≠ "all")
    (hlen : (splitComma s).length ≠ 1)
    (hhd : strStartsWith ((splitComma s).headD "") "all_except_" = true) :
    resolveUsedFlags fs (some s) =
      .error "If 'all_except_<x>' is provided in filter_flags, it should be the only value." := by
  simp only [resolveUsedFlags]
  rw [if_neg hall]
  simp only [hhd, Bool.and_true, decide_eq_false hlen]
  rfl

/-- Helper: a selected flag name missing from the registry makes `check_qc`
fail. -/
theorem check_qc_error_of_unregistered (fs : QCFlags) (u : Option String) (b : Bool)
    (selected : List String) (hp : resolveUsedFlags fs u = .ok selected)
    (p : String) (hmem : p ∈ selected) (hnot : p ∉ qcKeys fs) :
    check_qc fs u b =
      .error "not all flags are in the qc dict. please check you ran all qc tests" := by
  unfold check_qc
  rw [hp]
  have hA : selected.all (fun f => (qcKeys fs).contains f) = false := by
    cases hA2 : selected.all (fun f => (qcKeys fs).contains f) with
    | false => rfl
    | true => exact absurd (List.elem_iff.mp (List.all_eq_true.mp hA2 p hmem)) hnot
  simp only [hA, Bool.not_false]
  rfl

/-- Helper: with every selected flag registered, `check_qc` returns the
conjunction of the selected flag values in `check_ugly` mode and their
disjunction otherwise. -/
theorem check_qc_ok_of_registered (fs : QCFlags) (u : Option String) (b : Bool)
    (selected : List String) (hp : resolveUsedFlags fs u = .ok selected)
    (hmemall : ∀ p ∈ selected, p ∈ qcKeys fs) :
    check_qc fs u b =
      .ok (cond b ((selected.map (fun f => (qcGet fs f).getD false)).all id)
                  ((selected.map (fun f => (qcGet fs f).getD false)).any id)) := by
  unfold check_qc
  rw [hp]
  have hA : selected.all (fun f => (qcKeys fs).contains f) = true :=
    List.all_eq_true.mpr (fun p hper => List.elem_iff.mpr (hmemall p hper))
  simp only [hA, Bool.not_true]
  cases b
  · cases hAny : (selected.map (fun f => (qcGet fs f).getD false)).any id <;> rfl
  · cases hAll : (selected.map (fun f => (qcGet fs f).getD false)).all id <;> rfl

/-- Helper: the comma splitter never returns an empty list. -/
theorem splitCommaAux_ne_nil (l : List Char) : ∀ acc, splitCommaAux l acc ≠ [] := by
  induction l with
  | nil => intro acc; simp [splitCommaAux]
  | cons c rest ih =>
    intro acc
    by_cases hc : c = ','
    · simp [splitCommaAux, hc]
    · simp only [splitCommaAux, if_neg hc]
      exact ih (c :: acc)

/-- Helper: the default head of the split is a member of the split. -/
theorem splitComma_headD_mem (s : String) : (splitComma s).headD "" ∈ splitComma s := by
  cases hsp : splitComma s with
  | nil => exact absurd hsp (splitCommaAux_ne_nil s.data [])
  | cons hd tl => simp

/-- C4: the `check_qc` filtering contract: `used_flags=None` passes
vacuously (with the default `check_ugly=True`); combining an
`all_except_<x>` entry with any other comma-separated value errors (for
registries whose flag names do not start with `all_except_`); requesting an
unregistered flag name errors; and otherwise the result is the conjunction
of the selected flags when `check_ugly` is set and their disjunction when
it is unset, both for explicit lists and for `"all"`. -/
theorem check_qc_contract (fs : QCFlags) (s : String) (b : Bool) :
    (check_qc fs none true = .ok true)
    ∧ (2 ≤ (splitComma s).length →
        (∃ p ∈ splitComma s, strStartsWith p "all_except_" = true) →
        (∀ k ∈ qcKeys fs, strStartsWith k "all_except_" = false) →
        ∃ e, check_qc fs (some s) b = .error e)
    ∧ (s ≠ "all" →
        (∀ p ∈ splitComma s, strStartsWith p "all_except_" = false) →
        (∃ p ∈ splitComma s, p ∉ qcKeys fs) →
        ∃ e, check_qc fs (some s) b = .error e)
    ∧ (s ≠ "all" →
        (∀ p ∈ splitComma s, strStartsWith p "all_except_" = false) →
        (∀ p ∈ splitComma s, p ∈ qcKeys fs) →
        check_qc fs (some s) b =
          .ok (cond b (((splitComma s).map (fun f => (qcGet fs f).getD false)).all id)
                      (((splitComma s).map (fun f => (qcGet fs f).getD false)).any id)))
    ∧ (check_qc fs (some "all") b =
        .ok (cond b (((qcKeys fs).map (fun f => (qcGet fs f).getD false)).all id)
                    (((qcKeys fs).map (fun f => (qcGet fs f).getD false)).any id))) := by
  refine ⟨by simp [check_qc, resolveUsedFlags], ?_, ?_, ?_, ?_⟩
  · intro hlen hex hkeys
    have hall : s ≠ "all" := by
      intro hcontra
      subst hcontra
      have hone : (splitComma "all").length = 1 := by decide
      omega
    cases hhd : strStartsWith ((splitComma s).headD "") "all_except_" with
    | true =>
      exact ⟨_, check_qc_error_of_parse fs (some s) b _
        (resolve_conflict fs s hall (by omega) hhd)⟩
    | false =>
      obtain ⟨p, hp, hps⟩ := hex
      have hnot : p ∉ qcKeys fs := fun hmem => by
        rw [hkeys p hmem] at hps
        exact Bool.false_ne_true hps
      exact ⟨_, check_qc_error_of_unregistered fs (some s) b _
        (resolve_plain fs s hall hhd) p hp hnot⟩
  · intro hall hnostart hex
    obtain ⟨p, hp, hpnot⟩ := hex
    exact ⟨_, check_qc_error_of_unregistered fs (some s) b _
      (resolve_plain fs s hall (hnostart _ (splitComma_headD_mem s))) p hp hpnot⟩
  · intro hall hnostart hmemall
    exact check_qc_ok_of_registered fs (some s) b _
      (resolve_plain fs s hall (hnostart _ (splitComma_headD_mem s))) hmemall
  · exact check_qc_ok_of_registered fs (some "all") b (qcKeys fs)
      (by simp [resolveUsedFlags]) (fun p hper => hper)

/-- Witness for C4 at the registry `[("a", true), ("b", false)]`: the
filter `"all_except_a,b"` combines `all_except_` with another value and
errors. -/
theorem check_qc_contract_witness :
    ∃ e, check_qc [("a", true), ("b", false)] (some "all_except_a,b") true = .error e :=
  (check_qc_contract [("a", true), ("b", false)] "all_except_a,b" true).2.1
    (by decide) (by decide) (by decide)

/-- Counterexample to C1: a bin with no raw samples (`N = 0`) whose
gap-filled value is exactly `0` (not NaN) receives method flag `m = 0`
("no data"), not `m = 1` as the claim requires for every non-NaN filled
value. -/
theorem m_flag_zero_value_counterexample :
    mMethodFlag 0 (some 0) = 0 ∧ mMethodFlag 0 (some 0) ≠ 1 := by decide

/-- C1 (amended): `m = 2` iff `N > 0`; `m = 1` iff `N = 0` and the
post-fill value is non-NaN and non-zero; `m = 0` iff `N = 0` and the
post-fill value is NaN or exactly `0`. -/
theorem m_flag_law (N : ℕ) (value : Option ℚ) :
    (mMethodFlag N value = 2 ↔ 0 < N)
    ∧ (mMethodFlag N value = 1 ↔ (N = 0 ∧ ∃ v, value = some v ∧ v ≠ 0))
    ∧ (mMethodFlag N value = 0 ↔ (N = 0 ∧ (value = none ∨ value = some 0))) := by
  rcases value with _ | v
  · simp only [mMethodFlag, Option.getD_none]
    rcases N with _ | n <;> simp
  · simp only [mMethodFlag, Option.getD_some]
    rcases N with _ | n
    · by_cases hv : v = 0
      · subst hv; simp
      · simp [hv]
    · simp [Nat.succ_ne_zero]

/-- Helper: a full window of the mask is all true iff every entry of the
window is true. -/
theorem windowAll_iff (mask : List Bool) (cons i : ℕ) (h : i + cons ≤ mask.length) :
    ((mask.drop i).take cons).all id = true ↔
      ∀ j < cons, mask.getD (i + j) false = true := by
  have hlen : ((mask.drop i).take cons).length = cons := by
    simp only [List.length_take, List.length_drop]
    omega
  have hval : ∀ (j : ℕ) (hj : j < ((mask.drop i).take cons).length),
      ((mask.drop i).take cons).get ⟨j, hj⟩ = mask.getD (i + j) false := by
    intro j hj
    have hij : i + j < mask.length := by omega
    simp only [List.get_eq_getElem]
    rw [List.getD_eq_getElem mask false hij, List.getElem_take, List.getElem_drop]
  rw [List.all_eq_true]
  constructor
  · intro hall j hj
    have hjw : j < ((mask.drop i).take cons).length := by omega
    have hmem := hall _ (List.get_mem ((mask.drop i).take cons) j hjw)
    rw [hval j hjw] at hmem
    exact hmem
  · intro hfor x hx
    obtain ⟨j, hjw, rfl⟩ := List.mem_iff_getElem.mp hx
    have hx2 := hfor j (by omega)
    rw [← hval j hjw] at hx2
    simpa using hx2

/-- Helper: the loop finds exactly the minimal full all-true window. -/
theorem findRunFrom_found (mask : List Bool) (cons : ℕ) :
    ∀ rem i k, i + rem = mask.length + 1 - cons → i ≤ k →
      specRunAt mask cons k →
      (∀ j, i ≤ j → j < k → ¬ specRunAt mask cons j) →
      findRunFrom mask cons i rem = some k := by
  intro rem
  induction rem with
  | zero =>
    intro i k hsum hik hk _
    exfalso
    obtain ⟨hkb, _⟩ := hk
    omega
  | succ rem ih =>
    intro i k hsum hik hk hmin
    by_cases hik0 : i = k
    · subst hik0
      have hwin : ((mask.drop i).take cons).all id = true :=
        (windowAll_iff mask cons i hk.1).mpr hk.2
      simp [findRunFrom, hwin]
    · have hlt : i < k := by omega
      have hbound : i + cons ≤ mask.length := by
        have := hk.1
        omega
      have hnot : ¬ specRunAt mask cons i := hmin i le_rfl hlt
      have hwin : ((mask.drop i).take cons).all id = false := by
        cases hw : ((mask.drop i).take cons).all id with
        | false => rfl
        | true => exact absurd ⟨hbound, (windowAll_iff mask cons i hbound).mp hw⟩ hnot
      rw [findRunFrom, hwin]
      simp only [Bool.false_eq_true, if_false]
      exact ih (i + 1) k (by omega) (by omega) hk (fun j hj1 hj2 => hmin j (by omega) hj2)

/-- Helper: the loop finds nothing when no full all-true window exists. -/
theorem findRunFrom_none (mask : List Bool) (cons : ℕ) :
    ∀ rem i, i + rem = mask.length + 1 - cons →
      (∀ j, ¬ specRunAt mask cons j) →
      findRunFrom mask cons i rem = none := by
  intro rem
  induction rem with
  | zero => intro i _ _; rfl
  | succ rem ih =>
    intro i hsum hnone
    have hbound : i + cons ≤ mask.length := by omega
    have hwin : ((mask.drop i).take cons).all id = false := by
      cases hw : ((mask.drop i).take cons).all id with
      | false => rfl
      | true => exact absurd ⟨hbound, (windowAll_iff mask cons i hbound).mp hw⟩ (hnone i)
    rw [findRunFrom, hwin]
    simp only [Bool.false_eq_true, if_false]
    exact ih (i + 1) (by omega) hnone

/-- Helper: `is_floater` equals `np.any(floater)`. -/
theorem get_is_floater_fst (ds : List SurfSample) (thr : ℚ) (cons : ℕ) :
    (get_is_floater ds thr cons).1 = (floaterMask (surfaceFilter ds thr)).any id := by
  unfold get_is_floater
  cases hA : (floaterMask (surfaceFilter ds thr)).any id
  · simp [hA]
  · simp only [hA, if_true]
    split <;> rfl

/-- Helper: `any id` over a boolean list as a bounded existential. -/
theorem any_id_iff (l : List Bool) :
    l.any id = true ↔ ∃ i < l.length, l.getD i false = true := by
  rw [List.any_eq_true]
  constructor
  · rintro ⟨x, hx, hid⟩
    obtain ⟨j, hjw, rfl⟩ := List.mem_iff_getElem.mp hx
    refine ⟨j, hjw, ?_⟩
    rw [List.getD_eq_getElem l false hjw]
    exact hid
  · rintro ⟨i, hi, hv⟩
    refine ⟨l.get ⟨i, hi⟩, List.get_mem l i hi, ?_⟩
    rw [List.getD_eq_getElem l false hi] at hv
    simpa using hv

/-- Helper: a non-floater gets no landing time. -/
theorem get_is_floater_snd_none (ds : List SurfSample) (thr : ℚ) (cons : ℕ)
    (h : (get_is_floater ds thr cons).1 = false) :
    (get_is_floater ds thr cons).2 = none := by
  have hA : (floaterMask (surfaceFilter ds thr)).any id = false := by
    rw [← get_is_floater_fst ds thr cons]
    exact h
  unfold get_is_floater
  simp [hA]

/-- Counterexample to C8: with the default threshold 25 and
`consecutive_time_steps = 3`, a profile whose surface tail has exactly ONE
stable adjacent pair (samples 0 and 1) but no stable run of 3 consecutive
samples is still flagged `is_floater = True` by the code, while the claim
requires `is_floater = False`. -/
theorem floater_counterexample :
    (get_is_floater
        [⟨0, some 10, some 100⟩, ⟨1, some 10, some 100⟩, ⟨2, some 5, some 90⟩]
        25 3).1 = true
    ∧ ¬ specStableRun
        [⟨0, some 10, some 100⟩, ⟨1, some 10, some 100⟩, ⟨2, some 5, some 90⟩]
        25 3 := by
  have hfil : surfaceFilter
      [⟨0, some 10, some 100⟩, ⟨1, some 10, some 100⟩, ⟨2, some 5, some 90⟩] 25 =
      [⟨0, some 10, some 100⟩, ⟨1, some 10, some 100⟩, ⟨2, some 5, some 90⟩] := by
    norm_num [surfaceFilter, List.filter]
  have hmask : floaterMask (surfaceFilter
      [⟨0, some 10, some 100⟩, ⟨1, some 10, some 100⟩, ⟨2, some 5, some 90⟩] 25) =
      [true, false] := by
    rw [hfil]
    norm_num [floaterMask, List.zipWith, abs_lt]
  constructor
  · rw [get_is_floater_fst, hmask]
    rfl
  · rintro ⟨i, hile, hlen, hall⟩
    rw [hmask] at hlen hall
    have hi0 : i = 0 := by simp at hlen; omega
    subst hi0
    have h1 := hall 1 (by norm_num)
    simp at h1

/-- C8 (amended): `is_floater` is set exactly when SOME adjacent pair of
filtered samples is stable (one pair suffices, independently of
`consecutive_time_steps`); a non-floater gets no landing time; when a full
window of `cons` consecutive stable differences exists, the landing time is
the sample BEFORE the first such window (wrapping to the LAST filtered
sample when the window starts at index 0); and a floater without any full
window falls back to the first filtered sample. -/
theorem floater_detection_law (ds : List SurfSample) (thr : ℚ) (cons : ℕ) :
    ((get_is_floater ds thr cons).1 = true ↔
      ∃ i < (floaterMask (surfaceFilter ds thr)).length,
        (floaterMask (surfaceFilter ds thr)).getD i false = true)
    ∧ ((get_is_floater ds thr cons).1 = false → (get_is_floater ds thr cons).2 = none)
    ∧ (∀ k, (get_is_floater ds thr cons).1 = true →
        specRunAt (floaterMask (surfaceFilter ds thr)) cons k →
        (∀ j < k, ¬ specRunAt (floaterMask (surfaceFilter ds thr)) cons j) →
        (get_is_floater ds thr cons).2 =
          some (if k = 0 then ((surfaceFilter ds thr).getLastD surfDefault).time
                else ((surfaceFilter ds thr).getD (k - 1) surfDefault).time))
    ∧ ((get_is_floater ds thr cons).1 = true →
        (∀ j, ¬ specRunAt (floaterMask (surfaceFilter ds thr)) cons j) →
        (get_is_floater ds thr cons).2 =
          some ((surfaceFilter ds thr).headD surfDefault).time) := by
  refine ⟨?_, get_is_floater_snd_none ds thr cons, ?_, ?_⟩
  · rw [get_is_floater_fst ds thr cons]
    exact any_id_iff _
  · intro k hfl hk hmin
    have hA : (floaterMask (surfaceFilter ds thr)).any id = true := by
      rw [← get_is_floater_fst ds thr cons]
      exact hfl
    have hfind : findRun (floaterMask (surfaceFilter ds thr)) cons = some k := by
      unfold findRun
      exact findRunFrom_found _ cons _ 0 k (by omega) (Nat.zero_le k) hk
        (fun j _ hj2 => hmin j hj2)
    unfold get_is_floater
    simp only [hA, if_true]
    rw [hfind]
  · intro hfl hnone
    have hA : (floaterMask (surfaceFilter ds thr)).any id = true := by
      rw [← get_is_floater_fst ds thr cons]
      exact hfl
    have hfind : findRun (floaterMask (surfaceFilter ds thr)) cons = none := by
      unfold findRun
      exact findRunFrom_none _ cons _ 0 (by omega) hnone
    unfold get_is_floater
    simp only [hA, if_true]
    rw [hfind]

/-- Witness for C8 at a concrete floater profile with a full stable window
starting at index 0: the landing time wraps to the LAST filtered sample
(time 4). -/
theorem floater_detection_law_witness :
    (get_is_floater
        [⟨0, some 10, some 100⟩, ⟨1, some 10, some 100⟩, ⟨2, some 10, some 100⟩,
         ⟨3, some 10, some 100⟩, ⟨4, some 3, some 90⟩] 25 3).2 = some 4 := by
  have hfil : surfaceFilter
      [⟨0, some 10, some 100⟩, ⟨1, some 10, some 100⟩, ⟨2, some 10, some 100⟩,
       ⟨3, some 10, some 100⟩, ⟨4, some 3, some 90⟩] 25 =
      [⟨0, some 10, some 100⟩, ⟨1, some 10, some 100⟩, ⟨2, some 10, some 100⟩,
       ⟨3, some 10, some 100⟩, ⟨4, some 3, some 90⟩] := by
    norm_num [surfaceFilter, List.filter]
  have hmask : floaterMask (surfaceFilter
      [⟨0, some 10, some 100⟩, ⟨1, some 10, some 100⟩, ⟨2, some 10, some 100⟩,
       ⟨3, some 10, some 100⟩, ⟨4, some 3, some 90⟩] 25) =
      [true, true, true, false] := by
    rw [hfil]
    norm_num [floaterMask, List.zipWith, abs_lt]
  have hfl : (get_is_floater
      [⟨0, some 10, some 100⟩, ⟨1, some 10, some 100⟩, ⟨2, some 10, some 100⟩,
       ⟨3, some 10, some 100⟩, ⟨4, some 3, some 90⟩] 25 3).1 = true := by
    rw [get_is_floater_fst, hmask]
    rfl
  have hrun : specRunAt (floaterMask (surfaceFilter
      [⟨0, some 10, some 100⟩, ⟨1, some 10, some 100⟩, ⟨2, some 10, some 100⟩,
       ⟨3, some 10, some 100⟩, ⟨4, some 3, some 90⟩] 25)) 3 0 := by
    unfold specRunAt
    rw [hmask]
    exact ⟨by norm_num, by decide⟩
  have h := (floater_detection_law
      [⟨0, some 10, some 100⟩, ⟨1, some 10, some 100⟩, ⟨2, some 10, some 100⟩,
       ⟨3, some 10, some 100⟩, ⟨4, some 3, some 90⟩] 25 3).2.2.1 0 hfl hrun
    (fun j hj => absurd hj (Nat.not_lt_zero j))
  rw [h, hfil]
  rfl

/-- Helper: `monoRepair` preserves length. -/
theorem monoRepair_length (curr : Option ℚ) (l : List (Option ℚ)) :
    (monoRepair curr l).length = l.length := by
  induction l generalizing curr with
  | nil => rfl
  | cons a rest ih =>
    unfold monoRepair
    split_ifs <;> simp [ih]

/-- Helper: each `monoRepair` output entry is the input entry or NaN. -/
theorem monoRepair_forall₂ (curr : Option ℚ) (l : List (Option ℚ)) :
    List.Forall₂ (fun a b => a = b ∨ a = none) (monoRepair curr l) l := by
  induction l generalizing curr with
  | nil => exact List.Forall₂.nil
  | cons a rest ih =>
    unfold monoRepair
    split_ifs with h1 h2
    · exact List.Forall₂.cons (Or.inr rfl) (ih curr)
    · exact List.Forall₂.cons (Or.inl rfl) (ih a)
    · exact List.Forall₂.cons (Or.inl rfl) (ih curr)

/-- Helper: the non-NaN entries kept by `monoRepair`, prefixed by the
anchor value, are non-decreasing. -/
theorem monoRepair_chain (curr : Option ℚ) (l : List (Option ℚ)) :
    List.Chain' (fun a b => a ≤ b) (curr.toList ++ (monoRepair curr l).filterMap id) := by
  induction l generalizing curr with
  | nil => cases curr <;> simp [monoRepair]
  | cons a rest ih =>
    unfold monoRepair
    split_ifs with h1 h2
    · simpa using ih curr
    · rcases a with _ | x
      · exact absurd rfl h2
      · have hx' : List.Chain' (fun a b => a ≤ b)
            (x :: (monoRepair (some x) rest).filterMap id) := by
          simpa using ih (some x)
        rcases curr with _ | c
        · simpa using hx'
        · have hcx : c ≤ x := by
            unfold optLt at h1
            simp at h1
            exact h1
          have hfm : ((some x :: monoRepair (some x) rest).filterMap id)
              = x :: (monoRepair (some x) rest).filterMap id := by
            simp
          simp only [Option.toList_some, List.singleton_append, hfm]
          rw [List.chain'_cons]
          exact ⟨hcx, hx'⟩
    · have ha : a = none := by
        by_contra hcon
        exact h2 hcon
      subst ha
      have hfm : ((none :: monoRepair curr rest).filterMap id)
          = (monoRepair curr rest).filterMap id := by simp
      rw [hfm]
      exact ih curr

/-- Helper: the minimum accumulated by `foldl min` is an element. -/
theorem foldl_min_mem (v : ℚ) (vs : List ℚ) : vs.foldl min v ∈ v :: vs := by
  induction vs generalizing v with
  | nil => simp
  | cons w ws ih =>
    simp only [List.foldl_cons]
    have h := ih (min v w)
    rcases List.mem_cons.mp h with h1 | h1
    · rw [h1]
      rcases min_choice v w with hm | hm <;> rw [hm] <;> simp
    · simp [h1]

/-- Helper: a successful `nanargmin` index is in range. -/
theorem nanargmin_lt (l : List (Option ℚ)) (idx : ℕ) (h : nanargmin l = .ok idx) :
    idx < l.length := by
  unfold nanargmin at h
  cases hfm : l.filterMap id with
  | nil => rw [hfm] at h; exact absurd h (by simp)
  | cons v vs =>
    rw [hfm] at h
    have hidx : l.findIdx (fun x => decide (x = some (vs.foldl min v))) = idx := by
      injection h
    rw [← hidx]
    apply List.findIdx_lt_length_of_exists
    have hmem : vs.foldl min v ∈ l.filterMap id := by
      rw [hfm]; exact foldl_min_mem v vs
    obtain ⟨a, ha, hae⟩ := List.mem_filterMap.mp hmem
    refine ⟨a, ha, ?_⟩
    simp only [id_eq] at hae
    simp [hae]

/-- Helper: `nanargmin` fails exactly on an all-NaN list. -/
theorem nanargmin_error_iff (l : List (Option ℚ)) :
    (∃ e, nanargmin l = .error e) ↔ l.filterMap id = [] := by
  unfold nanargmin
  cases hfm : l.filterMap id with
  | nil => simp
  | cons v vs => simp

/-- Helper: `nanargmin` on an all-NaN list raises. -/
theorem nanargmin_eq_error (l : List (Option ℚ)) (h : l.filterMap id = []) :
    nanargmin l = .error "All-NaN slice encountered" := by
  unfold nanargmin
  rw [h]

/-- Helper: the positive-difference mask is all NaN iff no difference is
positive. -/
theorem masked_nil_iff (alt : List (Option ℚ)) :
    (((altDiffs alt).reverse.map
        (fun d => if 0 < d then some d else none)).filterMap id = [])
      ↔ ∀ d ∈ altDiffs alt, d ≤ 0 := by
  rw [List.filterMap_map, List.filterMap_eq_nil_iff]
  constructor
  · intro h d hd
    have hthis := h d (List.mem_reverse.mpr hd)
    simp only [Function.comp, id_eq] at hthis
    by_contra hpos
    rw [if_pos (not_le.mp hpos)] at hthis
    exact Option.some_ne_none d hthis
  · intro h d hd
    have hle := h d (List.mem_reverse.mp hd)
    simp only [Function.comp, id_eq]
    rw [if_neg (not_lt.mpr hle)]

/-- Helper: length of the difference array of a nonempty clean profile. -/
theorem altDiffs_length (alt : List (Option ℚ)) :
    altDiffs alt = [] ∨ (altDiffs alt).length + 1 ≤ alt.length := by
  unfold altDiffs
  cases hc : alt.filterMap id with
  | nil => left; rfl
  | cons c cs =>
    right
    have h1 : (c :: cs).length ≤ alt.length := by
      rw [← hc]; exact List.length_filterMap_le id alt
    simp only [List.length_zipWith, List.tail_cons, List.length_cons] at h1 ⊢
    omega

/-- Helper: a strictly sorted profile is returned unchanged. -/
theorem rnm_sorted (alt : List (Option ℚ))
    (h : (altDiffs alt).all (fun d => decide (d < 0)) = true) :
    remove_non_mono_incr_alt alt = .ok alt := by
  unfold remove_non_mono_incr_alt
  rw [if_pos h]

/-- Helper: the repair branch, with a found anchor. -/
theorem rnm_repair (alt : List (Option ℚ)) (idx : ℕ)
    (hs : (altDiffs alt).all (fun d => decide (d < 0)) = false)
    (hn : nanargmin ((altDiffs alt).reverse.map
        (fun d => if 0 < d then some d else none)) = .ok idx) :
    remove_non_mono_incr_alt alt =
      .ok (((alt.reverse.take (idx + 1))
        ++ monoRepair (alt.reverse.getD idx none)
            (alt.reverse.drop (idx + 1))).reverse) := by
  unfold remove_non_mono_incr_alt
  rw [if_neg (by rw [hs]; simp), hn]

/-- Helper: the repair branch with no positive difference raises. -/
theorem rnm_error (alt : List (Option ℚ)) (e : String)
    (hs : (altDiffs alt).all (fun d => decide (d < 0)) = false)
    (hn : nanargmin ((altDiffs alt).reverse.map
        (fun d => if 0 < d then some d else none)) = .error e) :
    remove_non_mono_incr_alt alt = .error e := by
  unfold remove_non_mono_incr_alt
  rw [if_neg (by rw [hs]; simp), hn]

/-- Helper: the suffix of the repaired (reversed) array from the anchor
position onward, read in original time order: taking `k + 1` entries
exposes the repaired prefix plus the anchor element. -/
theorem repair_take_anchor (A rep : List (Option ℚ)) (idx : ℕ)
    (hidx : idx < A.length) (hrep : rep.length = A.length - (idx + 1)) :
    ((((A.take (idx + 1)) ++ rep).reverse).take (A.length - (idx + 1) + 1))
      = rep.reverse ++ [A.getD idx none] := by
  have hget : A[idx]? = some (A.getD idx none) := by
    rw [List.getElem?_eq_getElem hidx, List.getD_eq_getElem]
  have htake : A.take (idx + 1) = A.take idx ++ [A.getD idx none] := by
    rw [List.take_succ, hget]
    rfl
  rw [List.reverse_append, htake, List.reverse_append]
  have hlen : rep.reverse.length = A.length - (idx + 1) := by simp [hrep]
  rw [← hlen, List.take_append 1]
  rfl

/-- Helper: the repaired (reversed) array agrees with the original from the
anchor position onward. -/
theorem repair_drop_anchor (A rep : List (Option ℚ)) (idx : ℕ)
    (hrep : rep.length = A.length - (idx + 1)) :
    (((A.take (idx + 1)) ++ rep).reverse).drop (A.length - (idx + 1))
      = A.reverse.drop (A.length - (idx + 1)) := by
  rw [List.reverse_append]
  have hlen : rep.reverse.length = A.length - (idx + 1) := by simp [hrep]
  calc (rep.reverse ++ (A.take (idx + 1)).reverse).drop (A.length - (idx + 1))
      = (rep.reverse ++ (A.take (idx + 1)).reverse).drop rep.reverse.length := by
        rw [hlen]
    _ = (A.take (idx + 1)).reverse := List.drop_left _ _
    _ = A.reverse.drop (A.length - (idx + 1)) := List.reverse_take

/-- C7 (amended): the bottom-up monotonicity repair returns an all-NaN or
strictly-decreasing (after dropping NaNs) altitude sequence unchanged; a
successful output has the input's length and NaNs only at positions whose
samples were removed; the step RAISES (numpy `All-NaN slice` ValueError)
exactly when the cleaned sequence is not strictly decreasing yet has no
strictly positive consecutive difference (e.g. only ties); and on success
there is an anchor position `k` such that the output equals the input from
`k` on (later times), while the non-NaN entries up to and including the
anchor are non-increasing in time — entries after the anchor are NOT
repaired, so the output need not be globally non-increasing. -/
theorem mono_repair_law (alt : List (Option ℚ)) :
    ((alt.filterMap id) = [] → remove_non_mono_incr_alt alt = .ok alt)
    ∧ ((altDiffs alt).all (fun d => decide (d < 0)) = true →
        remove_non_mono_incr_alt alt = .ok alt)
    ∧ (∀ out, remove_non_mono_incr_alt alt = .ok out →
        out.length = alt.length
          ∧ List.Forall₂ (fun a b => a = b ∨ a = none) out alt)
    ∧ ((∃ e, remove_non_mono_incr_alt alt = .error e) ↔
        ((altDiffs alt).all (fun d => decide (d < 0)) = false
          ∧ ∀ d ∈ altDiffs alt, d ≤ 0))
    ∧ (∀ out, remove_non_mono_incr_alt alt = .ok out →
        ∃ k ≤ alt.length, out.drop k = alt.drop k
          ∧ List.Chain' (fun a b => b ≤ a) ((out.take (k + 1)).filterMap id)) := by
  refine ⟨?_, rnm_sorted alt, ?_, ?_, ?_⟩
  · intro h
    apply rnm_sorted
    have hdz : altDiffs alt = [] := by
      unfold altDiffs
      rw [h]
      rfl
    rw [hdz]
    rfl
  · intro out hout
    by_cases hs : (altDiffs alt).all (fun d => decide (d < 0)) = true
    · rw [rnm_sorted alt hs] at hout
      injection hout with h'
      subst h'
      exact ⟨rfl, List.forall₂_same.mpr (fun x _ => Or.inl rfl)⟩
    · rw [Bool.not_eq_true] at hs
      cases hn : nanargmin ((altDiffs alt).reverse.map
          (fun d => if 0 < d then some d else none)) with
      | error e =>
        rw [rnm_error alt e hs hn] at hout
        exact absurd hout (by simp)
      | ok idx =>
        rw [rnm_repair alt idx hs hn] at hout
        injection hout with h'
        subst h'
        have hTake : List.Forall₂ (fun a b : Option ℚ => a = b ∨ a = none)
            (alt.reverse.take (idx + 1)) (alt.reverse.take (idx + 1)) :=
          List.forall₂_same.mpr (fun x _ => Or.inl rfl)
        have hF : List.Forall₂ (fun a b => a = b ∨ a = none)
            ((alt.reverse.take (idx + 1))
              ++ monoRepair (alt.reverse.getD idx none) (alt.reverse.drop (idx + 1)))
            ((alt.reverse.take (idx + 1)) ++ (alt.reverse.drop (idx + 1))) :=
          List.rel_append hTake (monoRepair_forall₂ _ _)
        rw [List.take_append_drop] at hF
        have hF2 := List.forall₂_reverse_iff.mpr hF
        rw [List.reverse_reverse] at hF2
        exact ⟨hF2.length_eq, hF2⟩
  · constructor
    · rintro ⟨e, he⟩
      by_cases hs : (altDiffs alt).all (fun d => decide (d < 0)) = true
      · rw [rnm_sorted alt hs] at he
        exact absurd he (by simp)
      · rw [Bool.not_eq_true] at hs
        cases hn : nanargmin ((altDiffs alt).reverse.map
            (fun d => if 0 < d then some d else none)) with
        | ok idx =>
          rw [rnm_repair alt idx hs hn] at he
          exact absurd he (by simp)
        | error e' =>
          exact ⟨hs, (masked_nil_iff alt).mp ((nanargmin_error_iff _).mp ⟨e', hn⟩)⟩
    · rintro ⟨hs, hle⟩
      have hn := nanargmin_eq_error _ ((masked_nil_iff alt).mpr hle)
      exact ⟨_, rnm_error alt _ hs hn⟩
  · intro out hout
    by_cases hs : (altDiffs alt).all (fun d => decide (d < 0)) = true
    · rw [rnm_sorted alt hs] at hout
      injection hout with h'
      subst h'
      refine ⟨0, Nat.zero_le _, rfl, ?_⟩
      rcases alt with _ | ⟨a, rest⟩
      · simp
      · rcases a with _ | x <;> simp
    · rw [Bool.not_eq_true] at hs
      cases hn : nanargmin ((altDiffs alt).reverse.map
          (fun d => if 0 < d then some d else none)) with
      | error e =>
        rw [rnm_error alt e hs hn] at hout
        exact absurd hout (by simp)
      | ok idx =>
        rw [rnm_repair alt idx hs hn] at hout
        injection hout with h'
        subst h'
        have hidx : idx < (altDiffs alt).length := by
          have h1 := nanargmin_lt _ idx hn
          simpa using h1
        have hdl : (altDiffs alt).length + 1 ≤ alt.length := by
          rcases altDiffs_length alt with hz | hz
          · rw [hz] at hidx
            exact absurd hidx (by simp)
          · exact hz
        have hidxA : idx < alt.reverse.length := by
          simp only [List.length_reverse]
          omega
        have hrep : (monoRepair (alt.reverse.getD idx none)
            (alt.reverse.drop (idx + 1))).length = alt.reverse.length - (idx + 1) := by
          rw [monoRepair_length, List.length_drop]
        refine ⟨alt.reverse.length - (idx + 1), by simp, ?_, ?_⟩
        · rw [repair_drop_anchor _ _ idx hrep, List.reverse_reverse]
        · rw [repair_take_anchor _ _ idx hidxA hrep]
          have hch := monoRepair_chain (alt.reverse.getD idx none)
            (alt.reverse.drop (idx + 1))
          have hrev := List.chain'_reverse.mpr hch
          have h2 : (alt.reverse.getD idx none).toList.reverse
              = (alt.reverse.getD idx none).toList := by
            cases alt.reverse.getD idx none <;> rfl
          rw [List.reverse_append, h2] at hrev
          have h1 : (([(alt.reverse.getD idx none)] : List (Option ℚ)).filterMap id)
              = (alt.reverse.getD idx none).toList := by
            cases alt.reverse.getD idx none <;> rfl
          rw [List.filterMap_append, List.filterMap_reverse, h1]
          exact hrev

/-- Counterexample to C7: the altitude sequence `[10, 11, 5, 50, 3]`
(time-ascending, two upward glitches) is repaired to
`[NaN, 11, 5, 50, 3]`, whose non-NaN entries are NOT non-increasing in
time (`5 < 50` survives); and the all-tied sequence `[5, 5, 4]` makes the
anchor search RAISE numpy's all-NaN-slice ValueError, although the claim
says the step never raises. -/
theorem mono_repair_counterexample :
    remove_non_mono_incr_alt [some 10, some 11, some 5, some 50, some 3]
        = .ok [none, some 11, some 5, some 50, some 3]
    ∧ ¬ List.Chain' (fun a b : ℚ => b ≤ a)
        (([none, some 11, some 5, some 50, some 3] : List (Option ℚ)).filterMap id)
    ∧ remove_non_mono_incr_alt [some 5, some 5, some 4]
        = .error "All-NaN slice encountered" := by
  have hd : altDiffs [some 10, some 11, some 5, some 50, some 3]
      = [1, -6, 45, -47] := by
    norm_num [altDiffs, List.filterMap, List.zipWith]
  have hs : (altDiffs [some 10, some 11, some 5, some 50, some 3]).all
      (fun d => decide (d < 0)) = false := by
    rw [hd]
    decide
  have hn : nanargmin ((altDiffs [some 10, some 11, some 5, some 50, some 3]).reverse.map
      (fun d => if 0 < d then some d else none)) = .ok 3 := by
    rw [hd]
    rfl
  have hd3 : altDiffs [some 5, some 5, some 4] = [0, -1] := by
    norm_num [altDiffs, List.filterMap, List.zipWith]
  have hs3 : (altDiffs [some 5, some 5, some 4]).all
      (fun d => decide (d < 0)) = false := by
    rw [hd3]
    decide
  have hn3 : nanargmin ((altDiffs [some 5, some 5, some 4]).reverse.map
      (fun d => if 0 < d then some d else none)) = .error "All-NaN slice encountered" := by
    rw [hd3]
    rfl
  refine ⟨?_, ?_, rnm_error _ _ hs3 hn3⟩
  · rw [rnm_repair _ 3 hs hn]
    rfl
  · intro h
    rw [show (([none, some 11, some 5, some 50, some 3] : List (Option ℚ)).filterMap id)
        = [11, 5, 50, 3] from rfl] at h
    rw [List.chain'_cons, List.chain'_cons] at h
    have h50 : (50:ℚ) ≤ 5 := h.2.1
    norm_num at h50

/-- Witness for C7 at a strictly decreasing concrete profile: the repair
returns the input unchanged. -/
theorem mono_repair_law_witness :
    remove_non_mono_incr_alt [some 5, some 4] = .ok [some 5, some 4] := by
  apply (mono_repair_law [some 5, some 4]).2.1
  have hd : altDiffs [some 5, some 4] = [-1] := by
    norm_num [altDiffs, List.filterMap, List.zipWith]
  rw [hd]
  decide

/-- Helper: with every valid sonde exactly on the plane `a + b·x + c·y`,
the right-hand side `Aᵀu` equals `AᵀA · (a, b, c)`. -/
theorem plane_sums (l : List SondeLevel) (a b c : ℚ)
    (hp : ∀ s ∈ l, sondeValid s = true →
      s.u = some (a + b * s.x.getD 0 + c * s.y.getD 0)) :
    v1 l = a * m11 l + b * m12 l + c * m13 l
    ∧ v2 l = a * m12 l + b * m22 l + c * m23 l
    ∧ v3 l = a * m13 l + b * m23 l + c * m33 l := by
  induction l with
  | nil =>
    refine ⟨?_, ?_, ?_⟩ <;> simp [v1, v2, v3, m11, m12, m13, m22, m23, m33]
  | cons s rest ih =>
    obtain ⟨h1, h2, h3⟩ := ih (fun t ht hv => hp t (List.mem_cons_of_mem s ht) hv)
    have h1' : (rest.map (fun t => (designRow t).o * (designRow t).u)).sum
        = a * (rest.map (fun t => (designRow t).o * (designRow t).o)).sum
          + b * (rest.map (fun t => (designRow t).o * (designRow t).x)).sum
          + c * (rest.map (fun t => (designRow t).o * (designRow t).y)).sum := h1
    have h2' : (rest.map (fun t => (designRow t).x * (designRow t).u)).sum
        = a * (rest.map (fun t => (designRow t).o * (designRow t).x)).sum
          + b * (rest.map (fun t => (designRow t).x * (designRow t).x)).sum
          + c * (rest.map (fun t => (designRow t).x * (designRow t).y)).sum := h2
    have h3' : (rest.map (fun t => (designRow t).y * (designRow t).u)).sum
        = a * (rest.map (fun t => (designRow t).o * (designRow t).y)).sum
          + b * (rest.map (fun t => (designRow t).x * (designRow t).y)).sum
          + c * (rest.map (fun t => (designRow t).y * (designRow t).y)).sum := h3
    by_cases hv : sondeValid s = true
    · have hu : s.u = some (a + b * s.x.getD 0 + c * s.y.getD 0) :=
        hp s (List.mem_cons_self s rest) hv
      have hrow : designRow s = ⟨1, s.x.getD 0, s.y.getD 0,
          a + b * s.x.getD 0 + c * s.y.getD 0⟩ := by
        rw [designRow, if_pos hv, hu]
        rfl
      refine ⟨?_, ?_, ?_⟩ <;>
        simp only [v1, v2, v3, m11, m12, m13, m22, m23, m33, List.map_cons,
          List.sum_cons, hrow] <;>
        first
          | (rw [h1']; ring)
          | (rw [h2']; ring)
          | (rw [h3']; ring)
    · have hrow : designRow s = ⟨0, 0, 0, 0⟩ := by
        rw [designRow, if_neg hv]
      refine ⟨?_, ?_, ?_⟩ <;>
        simp only [v1, v2, v3, m11, m12, m13, m22, m23, m33, List.map_cons,
          List.sum_cons, hrow] <;>
        first
          | (rw [h1']; ring)
          | (rw [h2']; ring)
          | (rw [h3']; ring)

/-- Helper: Cramer's rule on the symmetric 3x3 normal system, as a ring
identity. -/
theorem cramer_identity (p11 p12 p13 p22 p23 p33 a b c : ℚ) :
    det3 (a * p11 + b * p12 + c * p13) p12 p13
         (a * p12 + b * p22 + c * p23) p22 p23
         (a * p13 + b * p23 + c * p33) p23 p33
      = a * det3 p11 p12 p13 p12 p22 p23 p13 p23 p33
    ∧ det3 p11 (a * p11 + b * p12 + c * p13) p13
         p12 (a * p12 + b * p22 + c * p23) p23
         p13 (a * p13 + b * p23 + c * p33) p33
      = b * det3 p11 p12 p13 p12 p22 p23 p13 p23 p33
    ∧ det3 p11 p12 (a * p11 + b * p12 + c * p13)
         p12 p22 (a * p12 + b * p22 + c * p23)
         p13 p23 (a * p13 + b * p23 + c * p33)
      = c * det3 p11 p12 p13 p12 p22 p23 p13 p23 p33 := by
  refine ⟨?_, ?_, ?_⟩ <;> (unfold det3; ring)

/-- C5: `fit2d` masks every sonde with a NaN value, x or y at the level; a
level with fewer than 6 valid sondes returns NaN for all three outputs; and
with at least 6 valid sondes and a full-rank design matrix, a field lying
exactly on the plane `a + b·x + c·y` is recovered exactly as `(a, b, c)`
(the concrete plane `2 + 3x - 1y` of the claim is the witness below). -/
theorem plane_fit_degeneracy (l : List SondeLevel) (a b c : ℚ) :
    (validCount l < 6 → fit2d l = (none, none, none))
    ∧ (6 ≤ validCount l → detM l ≠ 0 →
        (∀ s ∈ l, sondeValid s = true →
          s.u = some (a + b * s.x.getD 0 + c * s.y.getD 0)) →
        fit2d l = (some a, some b, some c)) := by
  constructor
  · intro h
    unfold fit2d
    rw [if_pos h]
  · intro h6 hdet hp
    obtain ⟨hv1, hv2, hv3⟩ := plane_sums l a b c hp
    have hc1 : cram1 l = a * detM l := by
      unfold cram1 detM
      rw [hv1, hv2, hv3]
      exact (cramer_identity (m11 l) (m12 l) (m13 l) (m22 l) (m23 l) (m33 l) a b c).1
    have hc2 : cram2 l = b * detM l := by
      unfold cram2 detM
      rw [hv1, hv2, hv3]
      exact (cramer_identity (m11 l) (m12 l) (m13 l) (m22 l) (m23 l) (m33 l) a b c).2.1
    have hc3 : cram3 l = c * detM l := by
      unfold cram3 detM
      rw [hv1, hv2, hv3]
      exact (cramer_identity (m11 l) (m12 l) (m13 l) (m22 l) (m23 l) (m33 l) a b c).2.2
    unfold fit2d
    rw [if_neg (by omega)]
    rw [hc1, hc2, hc3, mul_div_cancel_right₀ a hdet, mul_div_cancel_right₀ b hdet,
      mul_div_cancel_right₀ c hdet]

/-- Witness for C5: six valid sondes lying exactly on the plane
`2 + 3x - 1y` (plus a seventh sonde with NaN x, which is masked) are fitted
to exactly `(2, 3, -1)`. -/
theorem plane_fit_degeneracy_witness :
    fit2d [⟨some 0, some 0, some 2⟩, ⟨some 1, some 0, some 5⟩,
           ⟨some 0, some 1, some 1⟩, ⟨some 1, some 1, some 4⟩,
           ⟨some 2, some 1, some 7⟩, ⟨some 1, some 2, some 3⟩,
           ⟨none, some 3, some 99⟩] = (some 2, some 3, some (-1)) := by
  apply (plane_fit_degeneracy _ 2 3 (-1)).2
  · decide
  · norm_num [detM, det3, m11, m12, m13, m22, m23, m33, designRow, sondeValid]
  · intro s hs hv
    fin_cases hs <;> simp_all [sondeValid] <;> norm_num

/-- Helper: `nancumsum` preserves length. -/
theorem nancumsum_length (acc : ℚ) (l : List (Option ℚ)) :
    (nancumsum acc l).length = l.length := by
  induction l generalizing acc with
  | nil => rfl
  | cons a r ih => simp [nancumsum, ih]

/-- Helper: `cumsumQ` preserves length. -/
theorem cumsumQ_length (acc : ℚ) (l : List ℚ) :
    (cumsumQ acc l).length = l.length := by
  induction l generalizing acc with
  | nil => rfl
  | cons a r ih => simp [cumsumQ, ih]

/-- Helper: adjacent entries of `nancumsum` differ by the (NaN-as-0)
summand. -/
theorem nancumsum_succ (acc : ℚ) (l : List (Option ℚ)) :
    ∀ k, k + 1 < l.length →
      (nancumsum acc l).getD (k + 1) 0
        = (nancumsum acc l).getD k 0 + (l.getD (k + 1) none).getD 0 := by
  induction l generalizing acc with
  | nil => intro k hk; simp at hk
  | cons a r ih =>
    intro k hk
    match k with
    | 0 =>
      rcases r with _ | ⟨b, r'⟩
      · simp at hk
      · simp [nancumsum]
    | k' + 1 =>
      have hk' : k' + 1 < r.length := by simpa using hk
      simpa [nancumsum] using ih (acc + a.getD 0) k' hk'

/-- Helper: adjacent entries of `cumsumQ` differ by the summand. -/
theorem cumsumQ_succ (acc : ℚ) (l : List ℚ) :
    ∀ k, k + 1 < l.length →
      (cumsumQ acc l).getD (k + 1) 0
        = (cumsumQ acc l).getD k 0 + l.getD (k + 1) 0 := by
  induction l generalizing acc with
  | nil => intro k hk; simp at hk
  | cons a r ih =>
    intro k hk
    match k with
    | 0 =>
      rcases r with _ | ⟨b, r'⟩
      · simp at hk
      · simp [cumsumQ]
    | k' + 1 =>
      have hk' : k' + 1 < r.length := by simpa using hk
      simpa [cumsumQ] using ih (acc + a) k' hk'

/-- Helper: the kept levels are a permutation of the NaN-divergence
filter. -/
theorem keptLevels_perm (ls : List CLevel) :
    (keptLevels ls).Perm (ls.filter (fun l => l.div.isSome)) :=
  List.perm_insertionSort _ _

/-- Helper: every kept level has a non-NaN divergence and comes from the
input list. -/
theorem keptLevels_mem (ls : List CLevel) (l : CLevel) (h : l ∈ keptLevels ls) :
    l ∈ ls ∧ l.div.isSome = true := by
  have h2 := (keptLevels_perm ls).mem_iff.mp h
  exact ⟨List.mem_of_mem_filter h2, by simpa using List.of_mem_filter h2⟩

/-- Helper: with pairwise distinct input altitudes, the kept altitudes are
pairwise distinct. -/
theorem keptLevels_nodup (ls : List CLevel)
    (hnodup : (ls.map (fun l => l.alt)).Nodup) :
    ((keptLevels ls).map (fun l => l.alt)).Nodup := by
  have hperm : ((keptLevels ls).map (fun l => l.alt)).Perm
      ((ls.filter (fun l => l.div.isSome)).map (fun l => l.alt)) :=
    (keptLevels_perm ls).map _
  refine hperm.nodup_iff.mpr ?_
  exact ((List.filter_sublist ls).map _).nodup hnodup

/-- Helper: the pressure-difference list has one entry per kept level (for
a nonempty kept list). -/
theorem presDiffs_length (ls : List CLevel) (h : keptLevels ls ≠ []) :
    (presDiffs ls).length = (keptLevels ls).length := by
  unfold presDiffs
  rcases hk : keptLevels ls with _ | ⟨c, cs⟩
  · exact absurd hk h
  · simp

/-- Helper: `delOmega` has one entry per kept level. -/
theorem delOmega_length (ls : List CLevel) :
    (delOmega ls).length = (keptLevels ls).length := by
  unfold delOmega
  rcases hk : keptLevels ls with _ | ⟨c, cs⟩
  · simp
  · have := presDiffs_length ls (by rw [hk]; simp)
    rw [hk] at this
    simp [List.length_zipWith, this]

/-- Helper: `omegaKept` has one entry per kept level. -/
theorem omegaKept_length (ls : List CLevel) :
    (omegaKept ls).length = (keptLevels ls).length := by
  unfold omegaKept
  rw [List.length_map, nancumsum_length, delOmega_length]

/-- Helper: `heightDiffs` has one entry per kept level. -/
theorem heightDiffs_length (ls : List CLevel) :
    (heightDiffs ls).length = (keptLevels ls).length := by
  unfold heightDiffs
  rcases hk : keptLevels ls with _ | ⟨c, cs⟩ <;> simp [List.length_zipWith]

/-- Helper: `delW` has one entry per kept level. -/
theorem delW_length (ls : List CLevel) :
    (delW ls).length = (keptLevels ls).length := by
  unfold delW
  rw [List.length_zipWith, heightDiffs_length, Nat.min_self]

/-- Helper: `wKept` has one entry per kept level. -/
theorem wKept_length (ls : List CLevel) :
    (wKept ls).length = (keptLevels ls).length := by
  unfold wKept
  rw [cumsumQ_length, delW_length]

/-- Helper: looking up the k-th kept altitude in the zipped value table
returns the k-th pair, given pairwise distinct kept altitudes. -/
theorem find_zip_nodup (kept : List CLevel) (vals : List ℚ)
    (hnd : (kept.map (fun l => l.alt)).Nodup) :
    ∀ k, k < kept.length → kept.length ≤ vals.length →
      (kept.zip vals).find? (fun kv => decide (kv.1.alt = (kept.getD k defCL).alt))
        = some (kept.getD k defCL, vals.getD k 0) := by
  induction kept generalizing vals with
  | nil => intro k hk _; simp at hk
  | cons c ck ih =>
    intro k hk hlv
    rcases vals with _ | ⟨v, vk⟩
    · simp at hlv
    match k with
    | 0 =>
      simp [List.find?]
    | k' + 1 =>
      have hk' : k' < ck.length := by simpa using hk
      have hne : ¬ (c.alt = ((c :: ck).getD (k' + 1) defCL).alt) := by
        intro hceq
        have hmem : (ck.getD k' defCL) ∈ ck := by
          rw [List.getD_eq_getElem ck defCL hk']
          exact List.getElem_mem hk'
        have hmap : ((c :: ck).getD (k' + 1) defCL).alt ∈ ck.map (fun l => l.alt) := by
          simp only [List.getD_cons_succ]
          exact List.mem_map_of_mem _ hmem
        rw [← hceq] at hmap
        exact (List.nodup_cons.mp hnd).1 hmap
      have hstep : ((c, v) :: ck.zip vk).find?
          (fun kv => decide (kv.1.alt = ((c :: ck).getD (k' + 1) defCL).alt))
          = (ck.zip vk).find?
            (fun kv => decide (kv.1.alt = ((c :: ck).getD (k' + 1) defCL).alt)) := by
        rw [List.find?_cons_of_neg]
        simpa using hne
      have hnd' : (ck.map (fun l => l.alt)).Nodup := (List.nodup_cons.mp hnd).2
      have hlv' : ck.length ≤ vk.length := by simpa using hlv
      calc ((c :: ck).zip (v :: vk)).find?
            (fun kv => decide (kv.1.alt = ((c :: ck).getD (k' + 1) defCL).alt))
          = (ck.zip vk).find?
            (fun kv => decide (kv.1.alt = ((c :: ck).getD (k' + 1) defCL).alt)) := hstep
        _ = some (ck.getD k' defCL, vk.getD k' 0) := by
            simpa only [List.getD_cons_succ] using ih vk hnd' k' hk' hlv'
        _ = some ((c :: ck).getD (k' + 1) defCL, (v :: vk).getD (k' + 1) 0) := by
            simp

/-- Helper: a present optional value equals `some` of its default
extraction. -/
theorem opt_eq_some_getD {o : Option ℚ} (h : o.isSome = true) (d : ℚ) :
    o = some (o.getD d) := by
  cases o
  · simp at h
  · rfl

/-- Helper: the broadcast output at position `i` is the lookup of the
`i`-th altitude. -/
theorem broadcast_getD (pairs : List (CLevel × ℚ)) (ls : List CLevel) (i : ℕ)
    (hi : i < ls.length) :
    (broadcastByAlt pairs ls).getD i none
      = (pairs.find? (fun kv => decide (kv.1.alt = (ls.getD i defCL).alt))).map
          (fun kv => kv.2) := by
  unfold broadcastByAlt
  have hlen : i < (ls.map (fun l => (pairs.find? (fun kv => decide (kv.1.alt = l.alt))).map
      (fun kv => kv.2))).length := by simpa using hi
  rw [List.getD_eq_getElem _ none hlen, List.getElem_map,
    List.getD_eq_getElem ls defCL hi]

/-- Helper: the broadcast output is NaN exactly at the NaN-divergence
levels (for pairwise distinct input altitudes). -/
theorem broadcast_none_iff (ls : List CLevel) (vals : List ℚ)
    (hnodup : (ls.map (fun l => l.alt)).Nodup)
    (hlen : (keptLevels ls).length ≤ vals.length)
    (i : ℕ) (hi : i < ls.length) :
    ((broadcastByAlt ((keptLevels ls).zip vals) ls).getD i none = none
      ↔ (ls.getD i defCL).div = none) := by
  rw [broadcast_getD _ ls i hi, Option.map_eq_none']
  constructor
  · intro hfind
    by_contra hdiv
    have hisome : (ls.getD i defCL).div.isSome = true := by
      cases hdv : (ls.getD i defCL).div
      · exact absurd hdv hdiv
      · rfl
    have hmemls : ls.getD i defCL ∈ ls := by
      rw [List.getD_eq_getElem ls defCL hi]
      exact List.getElem_mem hi
    have hmemk : ls.getD i defCL ∈ keptLevels ls :=
      (keptLevels_perm ls).mem_iff.mpr (List.mem_filter.mpr ⟨hmemls, hisome⟩)
    obtain ⟨k, hk, hkeq⟩ := List.mem_iff_getElem.mp hmemk
    have hkv : k < ((keptLevels ls).zip vals).length := by
      rw [List.length_zip]
      omega
    have hkvals : k < vals.length := by omega
    have hget : ((keptLevels ls).zip vals)[k]
        = ((keptLevels ls)[k], vals[k]) := List.getElem_zip
    have hmem2 : ((keptLevels ls)[k], vals[k]) ∈ (keptLevels ls).zip vals := by
      rw [← hget]
      exact List.getElem_mem hkv
    have hnp := List.find?_eq_none.mp hfind _ hmem2
    rw [hkeq] at hnp
    simp at hnp
  · intro hdiv
    apply List.find?_eq_none.mpr
    intro kv hkv
    simp only [decide_eq_true_eq]
    intro halt
    obtain ⟨hmem, hsome⟩ := keptLevels_mem ls kv.1 (List.of_mem_zip hkv).1
    have hmemls : ls.getD i defCL ∈ ls := by
      rw [List.getD_eq_getElem ls defCL hi]
      exact List.getElem_mem hi
    have heq : kv.1 = ls.getD i defCL :=
      List.inj_on_of_nodup_map hnodup hmem hmemls halt
    rw [heq, hdiv] at hsome
    simp at hsome

/-- Helper: the broadcast output at a kept level is the kept value at the
level's position in the sorted kept list. -/
theorem broadcast_at_kept (ls : List CLevel) (vals : List ℚ)
    (hnodup : (ls.map (fun l => l.alt)).Nodup)
    (hlen : (keptLevels ls).length ≤ vals.length)
    (i k : ℕ) (hi : i < ls.length) (hk : k < (keptLevels ls).length)
    (hki : (keptLevels ls).getD k defCL = ls.getD i defCL) :
    (broadcastByAlt ((keptLevels ls).zip vals) ls).getD i none
      = some (vals.getD k 0) := by
  rw [broadcast_getD _ ls i hi, ← hki,
    find_zip_nodup (keptLevels ls) vals (keptLevels_nodup ls hnodup) k hk hlen]
  rfl

/-- Helper: omega is zero at the lowest kept level (the zero-velocity
boundary condition). -/
theorem omegaKept_zero (ls : List CLevel) (h : keptLevels ls ≠ []) :
    (omegaKept ls).getD 0 0 = 0 := by
  unfold omegaKept delOmega presDiffs
  rcases hk : keptLevels ls with _ | ⟨c, cs⟩
  · exact absurd hk h
  · simp [nancumsum]

/-- Helper: w at the lowest kept level integrates the full height above
ground. -/
theorem wKept_zero (ls : List CLevel) (h : keptLevels ls ≠ []) :
    (wKept ls).getD 0 0
      = -(((keptLevels ls).getD 0 defCL).div.getD 0)
          * ((keptLevels ls).getD 0 defCL).alt := by
  unfold wKept delW heightDiffs
  rcases hk : keptLevels ls with _ | ⟨c, cs⟩
  · exact absurd hk h
  · simp [cumsumQ]

/-- Helper: the omega recurrence between consecutive kept levels. -/
theorem omegaKept_succ (ls : List CLevel)
    (hp : ∀ l ∈ keptLevels ls, l.p.isSome = true) :
    ∀ k, k + 1 < (keptLevels ls).length →
      (omegaKept ls).getD (k + 1) 0
        = (omegaKept ls).getD k 0
          + 36 * (-(((keptLevels ls).getD (k + 1) defCL).div.getD 0)
              * (((keptLevels ls).getD (k + 1) defCL).p.getD 0
                  - ((keptLevels ls).getD k defCL).p.getD 0)) := by
  intro k hk
  have hlo : (delOmega ls).length = (keptLevels ls).length := delOmega_length ls
  have hkk : k < (nancumsum 0 (delOmega ls)).length := by
    rw [nancumsum_length, hlo]
    omega
  have hk1 : k + 1 < (nancumsum 0 (delOmega ls)).length := by
    rw [nancumsum_length, hlo]
    omega
  have hm : ∀ j, j < (nancumsum 0 (delOmega ls)).length →
      (omegaKept ls).getD j 0 = (nancumsum 0 (delOmega ls)).getD j 0 * 36 := by
    intro j hj
    unfold omegaKept
    rw [List.getD_eq_getElem _ 0 (by simpa using hj), List.getElem_map,
      List.getD_eq_getElem _ 0 hj]
  rw [hm _ hk1, hm _ hkk, nancumsum_succ 0 (delOmega ls) k (by rw [hlo]; omega)]
  have hne : keptLevels ls ≠ [] := by
    intro hcon
    rw [hcon] at hk
    simp at hk
  have hpd : (presDiffs ls).length = (keptLevels ls).length := presDiffs_length ls hne
  have hb1 : k + 1 < (delOmega ls).length := by omega
  have hbk : k + 1 < (keptLevels ls).length := hk
  have hbk0 : k < (keptLevels ls).length := by omega
  have hbp : k + 1 < (presDiffs ls).length := by omega
  have hpk : (keptLevels ls)[k].p
      = some ((keptLevels ls)[k].p.getD 0) :=
    opt_eq_some_getD (hp _ (List.getElem_mem (by omega))) 0
  have hpk1 : (keptLevels ls)[k + 1].p
      = some ((keptLevels ls)[k + 1].p.getD 0) :=
    opt_eq_some_getD (hp _ (List.getElem_mem hbk)) 0
  have hmapk : k < ((keptLevels ls).map (fun l => l.p)).length := by
    simp
    omega
  have hmapk1 : k + 1 < ((keptLevels ls).map (fun l => l.p)).length := by
    simp
    omega
  have hbt : k < (((keptLevels ls).map (fun l => l.p)).tail).length := by
    unfold presDiffs at hbp
    simp only [List.length_cons, List.length_zipWith] at hbp
    simp only [List.length_tail]
    omega
  have hpde : (presDiffs ls)[k + 1]
      = some ((keptLevels ls)[k + 1].p.getD 0 - (keptLevels ls)[k].p.getD 0) := by
    unfold presDiffs
    rw [List.getElem_cons_succ]
    rw [List.getElem_zipWith]
    have htail : (((keptLevels ls).map (fun l => l.p)).tail)[k]
        = ((keptLevels ls).map (fun l => l.p))[k + 1] := by
      rcases hmap : (keptLevels ls).map (fun l => l.p) with _ | ⟨q, qs⟩
      · rw [hmap] at hmapk
        simp at hmapk
      · simp
    rw [htail, List.getElem_map, List.getElem_map, hpk, hpk1]
    rfl
  have hdoe : (delOmega ls).getD (k + 1) none
      = some (-(((keptLevels ls)[k + 1]).div.getD 0)
          * (((keptLevels ls)[k + 1]).p.getD 0 - ((keptLevels ls)[k]).p.getD 0)) := by
    rw [List.getD_eq_getElem _ none hb1]
    unfold delOmega
    rw [List.getElem_zipWith]
    rw [hpde]
    rfl
  rw [hdoe]
  rw [List.getD_eq_getElem _ defCL hbk, List.getD_eq_getElem _ defCL (by omega : k < (keptLevels ls).length)]
  simp only [Option.getD_some]
  ring

/-- Helper: the w recurrence between consecutive kept levels. -/
theorem wKept_succ (ls : List CLevel) :
    ∀ k, k + 1 < (keptLevels ls).length →
      (wKept ls).getD (k + 1) 0
        = (wKept ls).getD k 0
          + -(((keptLevels ls).getD (k + 1) defCL).div.getD 0)
              * (((keptLevels ls).getD (k + 1) defCL).alt
                  - ((keptLevels ls).getD k defCL).alt) := by
  intro k hk
  have hlw : (delW ls).length = (keptLevels ls).length := delW_length ls
  have hhl : (heightDiffs ls).length = (keptLevels ls).length := heightDiffs_length ls
  have hb1 : k + 1 < (delW ls).length := by omega
  have hbh : k + 1 < (heightDiffs ls).length := by omega
  have hbk0 : k < (keptLevels ls).length := by omega
  have hbc : k + 1 < ((0 : ℚ) :: (keptLevels ls).map (fun l => l.alt)).length := by
    simp only [List.length_cons, List.length_map]
    omega
  have hbm : k < ((keptLevels ls).map (fun l => l.alt)).length := by
    simp only [List.length_map]
    omega
  unfold wKept
  rw [cumsumQ_succ 0 (delW ls) k (by omega)]
  have hhe : (heightDiffs ls)[k + 1]
      = ((keptLevels ls)[k + 1]).alt - ((keptLevels ls)[k]).alt := by
    unfold heightDiffs
    rw [List.getElem_zipWith]
    have hc : ((0 : ℚ) :: (keptLevels ls).map (fun l => l.alt))[k + 1]
        = ((keptLevels ls).map (fun l => l.alt))[k] := by
      simp
    rw [hc, List.getElem_map, List.getElem_map]
  have hdwe : (delW ls).getD (k + 1) 0
      = -(((keptLevels ls)[k + 1]).div.getD 0)
          * (((keptLevels ls)[k + 1]).alt - ((keptLevels ls)[k]).alt) := by
    rw [List.getD_eq_getElem _ 0 hb1]
    unfold delW
    rw [List.getElem_zipWith]
    rw [hhe]
  rw [hdwe]
  rw [List.getD_eq_getElem _ defCL hk,
    List.getD_eq_getElem _ defCL (by omega : k < (keptLevels ls).length)]

/-- C6 (amended): `add_omega` / `add_wvel` first DROP the levels whose
divergence is NaN and sort the remainder by altitude; the cumulative
integrals are then computed over the kept levels only, with the pressure
difference (resp. height difference) taken between consecutive KEPT levels
— spanning any dropped gap — a zero-velocity boundary at the lowest kept
level for omega (w instead integrates the full height above 0 at its
lowest kept level), omega scaled by `0.01 * 60² = 36` to hPa/hour; the
broadcast back onto the full grid is NaN exactly AT the NaN-divergence
levels, while levels above a NaN-divergence level keep finite values. -/
theorem omega_wvel_law (ls : List CLevel)
    (hnodup : (ls.map (fun l => l.alt)).Nodup)
    (hp : ∀ l ∈ keptLevels ls, l.p.isSome = true) :
    ((add_omega ls).length = ls.length ∧ (add_wvel ls).length = ls.length)
    ∧ (∀ i < ls.length,
        (((add_omega ls).getD i none = none) ↔ (ls.getD i defCL).div = none)
        ∧ (((add_wvel ls).getD i none = none) ↔ (ls.getD i defCL).div = none))
    ∧ (∀ i < ls.length, ∀ k < (keptLevels ls).length,
        (keptLevels ls).getD k defCL = ls.getD i defCL →
        (add_omega ls).getD i none = some ((omegaKept ls).getD k 0)
          ∧ (add_wvel ls).getD i none = some ((wKept ls).getD k 0))
    ∧ (keptLevels ls ≠ [] →
        (omegaKept ls).getD 0 0 = 0
          ∧ (wKept ls).getD 0 0
            = -(((keptLevels ls).getD 0 defCL).div.getD 0)
                * ((keptLevels ls).getD 0 defCL).alt)
    ∧ (∀ k, k + 1 < (keptLevels ls).length →
        (omegaKept ls).getD (k + 1) 0
          = (omegaKept ls).getD k 0
            + 36 * (-(((keptLevels ls).getD (k + 1) defCL).div.getD 0)
                * (((keptLevels ls).getD (k + 1) defCL).p.getD 0
                    - ((keptLevels ls).getD k defCL).p.getD 0))
          ∧ (wKept ls).getD (k + 1) 0
            = (wKept ls).getD k 0
              + -(((keptLevels ls).getD (k + 1) defCL).div.getD 0)
                  * (((keptLevels ls).getD (k + 1) defCL).alt
                      - ((keptLevels ls).getD k defCL).alt)) := by
  refine ⟨⟨?_, ?_⟩, ?_, ?_, ?_, ?_⟩
  · simp [add_omega, broadcastByAlt]
  · simp [add_wvel, broadcastByAlt]
  · intro i hi
    exact ⟨broadcast_none_iff ls (omegaKept ls) hnodup
        (le_of_eq (omegaKept_length ls).symm) i hi,
      broadcast_none_iff ls (wKept ls) hnodup
        (le_of_eq (wKept_length ls).symm) i hi⟩
  · intro i hi k hk hki
    exact ⟨broadcast_at_kept ls (omegaKept ls) hnodup
        (le_of_eq (omegaKept_length ls).symm) i k hi hk hki,
      broadcast_at_kept ls (wKept ls) hnodup
        (le_of_eq (wKept_length ls).symm) i k hi hk hki⟩
  · intro hne
    exact ⟨omegaKept_zero ls hne, wKept_zero ls hne⟩
  · intro k hk
    exact ⟨omegaKept_succ ls hp k hk, wKept_succ ls k hk⟩

/-- Counterexample to C6: with divergence present at altitudes 0 and 20
but NaN at altitude 10, both integrals are finite at altitude 20 — the
level ABOVE the NaN-divergence level — because the NaN level is dropped
and the difference spans the gap; the claim instead requires NaN there. -/
theorem omega_nan_counterexample :
    add_omega [⟨0, some 1, some 100⟩, ⟨10, none, some 90⟩, ⟨20, some 1, some 80⟩]
        = [some 0, none, some 720]
    ∧ add_wvel [⟨0, some 1, some 100⟩, ⟨10, none, some 90⟩, ⟨20, some 1, some 80⟩]
        = [some 0, none, some (-20)]
    ∧ (add_omega [⟨0, some 1, some 100⟩, ⟨10, none, some 90⟩, ⟨20, some 1, some 80⟩]).getD 2 none
        ≠ none
    ∧ (add_wvel [⟨0, some 1, some 100⟩, ⟨10, none, some 90⟩, ⟨20, some 1, some 80⟩]).getD 2 none
        ≠ none := by
  have hkept : keptLevels
      [⟨0, some 1, some 100⟩, ⟨10, none, some 90⟩, ⟨20, some 1, some 80⟩]
      = [⟨0, some 1, some 100⟩, ⟨20, some 1, some 80⟩] := rfl
  have homega : omegaKept
      [⟨0, some 1, some 100⟩, ⟨10, none, some 90⟩, ⟨20, some 1, some 80⟩]
      = [0, 720] := by
    unfold omegaKept delOmega presDiffs
    rw [hkept]
    norm_num [nancumsum]
  have hw : wKept
      [⟨0, some 1, some 100⟩, ⟨10, none, some 90⟩, ⟨20, some 1, some 80⟩]
      = [0, -20] := by
    unfold wKept delW heightDiffs
    rw [hkept]
    norm_num [cumsumQ]
  have ho : add_omega
      [⟨0, some 1, some 100⟩, ⟨10, none, some 90⟩, ⟨20, some 1, some 80⟩]
      = [some 0, none, some 720] := by
    unfold add_omega
    rw [hkept, homega]
    rfl
  have hwv : add_wvel
      [⟨0, some 1, some 100⟩, ⟨10, none, some 90⟩, ⟨20, some 1, some 80⟩]
      = [some 0, none, some (-20)] := by
    unfold add_wvel
    rw [hkept, hw]
    rfl
  exact ⟨ho, hwv, by rw [ho]; simp, by rw [hwv]; simp⟩

/-- Witness for C6 at two clean levels: the omega boundary value at the
lowest kept level is zero, and w satisfies the `-D·Δz` recurrence. -/
theorem omega_wvel_law_witness :
    (omegaKept [⟨0, some 2, some 100⟩, ⟨10, some 1, some 90⟩]).getD 0 0 = 0
    ∧ (wKept [⟨0, some 2, some 100⟩, ⟨10, some 1, some 90⟩]).getD 1 0
        = (wKept [⟨0, some 2, some 100⟩, ⟨10, some 1, some 90⟩]).getD 0 0
          + -(((keptLevels [⟨0, some 2, some 100⟩, ⟨10, some 1, some 90⟩]).getD 1
                defCL).div.getD 0)
              * (((keptLevels [⟨0, some 2, some 100⟩, ⟨10, some 1, some 90⟩]).getD 1
                    defCL).alt
                  - ((keptLevels [⟨0, some 2, some 100⟩, ⟨10, some 1, some 90⟩]).getD 0
                      defCL).alt) := by
  have h := omega_wvel_law [⟨0, some 2, some 100⟩, ⟨10, some 1, some 90⟩]
    (by decide) (by decide)
  exact ⟨(h.2.2.2.1 (by decide)).1, (h.2.2.2.2 0 (by decide)).2⟩

/- ===================== Theorems: altitude bin-averaging ================ -/

theorem binCount_eq_length_valid {α : Type} [LinearOrderedField α]
    (edges : List α) (i : ℕ) (samples : List (Option α × Option α)) :
    binCount edges i samples = (validValuesInBin edges i samples).length := by
  induction samples with
  | nil => rfl
  | cons s rest ih =>
    obtain ⟨a, v⟩ := s
    simp only [binCount, validValuesInBin, maskedCoord, List.countP_cons,
      List.filterMap_cons] at ih ⊢
    cases a with
    | none =>
      cases v <;> simpa using ih
    | some t =>
      cases v with
      | none => simpa using ih
      | some x =>
        by_cases hb : inBin edges i t
        · simp [hb, ih]
        · simp [hb, ih]

theorem binWeightSum_eq_sum_valid {α : Type} [LinearOrderedField α]
    (edges : List α) (i : ℕ) (samples : List (Option α × Option α)) :
    binWeightSum edges i samples = (validValuesInBin edges i samples).sum := by
  induction samples with
  | nil => rfl
  | cons s rest ih =>
    obtain ⟨a, v⟩ := s
    simp only [binWeightSum, validValuesInBin, maskedCoord, List.map_cons, List.sum_cons,
      List.filterMap_cons] at ih ⊢
    cases a with
    | none =>
      cases v <;> simpa using ih
    | some t =>
      cases v with
      | none => simpa using ih
      | some x =>
        by_cases hb : inBin edges i t
        · simp [hb, ih]
        · simp [hb, ih]

theorem binValue_eq_mean {α : Type} [LinearOrderedField α]
    (edges : List α) (i : ℕ) (samples : List (Option α × Option α)) :
    binValue edges i samples
      = (if validValuesInBin edges i samples = [] then (none : Option α)
        else some ((validValuesInBin edges i samples).sum
            / ((validValuesInBin edges i samples).length : α))) := by
  unfold binValue
  rw [binCount_eq_length_valid, binWeightSum_eq_sum_valid]
  by_cases h : validValuesInBin edges i samples = []
  · simp [h]
  · rw [if_neg (by simpa [List.length_eq_zero] using h), if_neg h]

/-- C2 counterexample: with the default `p_log=True`, the gridded pressure
of a bin is NOT the arithmetic mean of the valid raw pressure samples in
the bin.  With one bin `[0, 20]` and two in-bin samples `exp 0` and
`exp 2`, the pipeline yields `exp 1` (the geometric mean `exp ((0+2)/2)`),
which differs from the arithmetic mean `(exp 0 + exp 2) / 2`. -/
theorem pressure_bin_geometric_mean_counterexample :
    pBinValue [0, 20] 0 [(some 5, some (Real.exp 0)), (some 15, some (Real.exp 2))]
        = some (Real.exp 1)
    ∧ pBinValue [0, 20] 0 [(some 5, some (Real.exp 0)), (some 15, some (Real.exp 2))]
        ≠ some ((Real.exp 0 + Real.exp 2) / 2) := by
  have h1 : inBin [(0:ℝ), 20] 0 5 = true := by
    simp only [inBin, List.length_cons, List.length_nil, List.getD, List.getD_cons_zero,
      List.getD_cons_succ, if_pos rfl, Bool.and_eq_true, decide_eq_true_eq]
    norm_num
  have h2 : inBin [(0:ℝ), 20] 0 15 = true := by
    simp only [inBin, List.length_cons, List.length_nil, List.getD, List.getD_cons_zero,
      List.getD_cons_succ, if_pos rfl, Bool.and_eq_true, decide_eq_true_eq]
    norm_num
  have hmap : ([((some 5 : Option ℝ), (some (Real.exp 0) : Option ℝ)),
      (some 15, some (Real.exp 2))].map (fun s => (s.1, s.2.map Real.log)))
      = [(some 5, some (Real.log (Real.exp 0))), (some 15, some (Real.log (Real.exp 2)))] := rfl
  have hvalid : validValuesInBin [(0:ℝ), 20] 0
      [(some 5, some (Real.log (Real.exp 0))), (some 15, some (Real.log (Real.exp 2)))]
      = [Real.log (Real.exp 0), Real.log (Real.exp 2)] := by
    simp [validValuesInBin, h1, h2]
  have hval : pBinValue [0, 20] 0
      [(some 5, some (Real.exp 0)), (some 15, some (Real.exp 2))] = some (Real.exp 1) := by
    unfold pBinValue
    rw [hmap, binValue_eq_mean, hvalid]
    simp [Real.log_exp]
  refine ⟨hval, ?_⟩
  rw [hval]
  intro hcontra
  have heq : Real.exp 1 = (Real.exp 0 + Real.exp 2) / 2 := by
    exact Option.some.inj hcontra
  have hz : Real.exp 0 = 1 := Real.exp_zero
  have hsq : Real.exp 2 = Real.exp 1 * Real.exp 1 := by
    rw [← Real.exp_add]; norm_num
  have hgt : (2:ℝ) < Real.exp 1 := by
    have := Real.add_one_lt_exp (by norm_num : (1:ℝ) ≠ 0)
    linarith
  rw [hz, hsq] at heq
  nlinarith [heq, hgt]

/-- C2 (amended): for every variable and altitude bin, N (`binCount`) equals
the count of the valid (non-NaN) raw samples whose altitude falls in the
right-open bin `[edge_i, edge_i+1)` (final bin closed on both ends, and a
sample whose altitude itself is NaN is never counted); the gridded value is
NaN when that count is zero and otherwise the arithmetic mean of exactly
those samples — EXCEPT for pressure, which under the default `p_log=True`
is log-transformed before binning and exponentiated after, so the gridded
pressure is the exponential of the mean of the logs (the geometric mean),
not the arithmetic mean. -/
theorem bin_averaging_law {α : Type} [LinearOrderedField α]
    (edges : List α) (i : ℕ) (samples : List (Option α × Option α))
    (pedges : List ℝ) (j : ℕ) (psamples : List (Option ℝ × Option ℝ)) :
    binCount edges i samples = (validValuesInBin edges i samples).length
    ∧ binValue edges i samples
        = (if validValuesInBin edges i samples = [] then (none : Option α)
          else some ((validValuesInBin edges i samples).sum
              / ((validValuesInBin edges i samples).length : α)))
    ∧ pBinValue pedges j psamples
        = (if validValuesInBin pedges j (psamples.map (fun s => (s.1, s.2.map Real.log))) = []
          then (none : Option ℝ)
          else some (Real.exp
              ((validValuesInBin pedges j (psamples.map (fun s => (s.1, s.2.map Real.log)))).sum
              / ((validValuesInBin pedges j
                  (psamples.map (fun s => (s.1, s.2.map Real.log)))).length : ℝ)))) := by
  refine ⟨binCount_eq_length_valid edges i samples, binValue_eq_mean edges i samples, ?_⟩
  unfold pBinValue
  rw [binValue_eq_mean]
  by_cases h : validValuesInBin pedges j (psamples.map (fun s => (s.1, s.2.map Real.log))) = []
  · simp [h]
  · simp [h]
